import Mathlib

/-!
Shallow embedding of the housing agent-based model (`try2.py`).

Numbers are modelled as rationals, Python object references as natural-number
identifiers, the `house_map` dictionary as a total function together with an
explicit domain list (a lookup of an identifier outside the domain corresponds
to a `KeyError`, modelled as `Option.none`), the `bids` dictionary as an
insertion-ordered association list, and Python's stable
`sorted(..., reverse=True)[0]` as a left fold keeping the earliest element with
the maximal key.  Crash points of the script (missing key, `sorted([])[0]`,
`None.unique_id`) are modelled by `Option`-valued operations.
-/

namespace HousingABM

set_option maxRecDepth 10000

/-! ## Global constants (try2.py lines 6-22) -/

def COST_PER_LABEL_UPGRADE : ℚ := 5000

def MOVING_COST_FIXED : ℚ := 2000

def MOVING_COST_VARIABLE : ℚ := 0.02

def WEIGHT_FINANCIAL : ℚ := 0.4

def WEIGHT_COMFORT : ℚ := 0.3

def WEIGHT_ENVIRONMENT : ℚ := 0.3

def MIN_WEALTH : ℚ := 0

def MAX_WEALTH : ℚ := 500000

def MAX_QUALITY : ℚ := 1.0

def MAX_SIZE : ℚ := 200

/-! ## Helper functions (try2.py lines 26-40) -/

def normalize (value min_val max_val : ℚ) : ℚ :=
  if max_val = min_val then 0
  else (max min_val (min value max_val) - min_val) / (max_val - min_val)

def calculate_mortgage_capacity (income : ℚ) : ℚ :=
  income * 5

/-! ## Data model -/

/-- The intention of a home owner; `Buy t` also records `target_house_id`. -/
inductive Intention where
  | Stay : Intention
  | Upgrade : Intention
  | Buy : ℕ → Intention
deriving DecidableEq, Repr

/-- A house (`House.__init__`, try2.py lines 55-65). -/
structure House where
  energy_label : ℤ
  size : ℚ
  quality : ℚ
  market_value : ℚ
  owner : Option ℕ
  is_vacant : Bool
deriving DecidableEq, Repr

/-- `House.update_energy_label` (try2.py lines 67-73): increments the label and
the market value, with no clamp. -/
def update_energy_label (h : House) (levels : ℤ) : House :=
  { h with
    energy_label := h.energy_label + levels
    market_value := h.market_value + (levels : ℚ) * 2000 }

/-- A home owner (`HomeOwner.__init__`, try2.py lines 77-86); `house` is the
identifier of the currently occupied house. -/
structure HomeOwner where
  income : ℚ
  savings : ℚ
  house : ℕ
  intention : Intention
deriving DecidableEq, Repr

/-- The whole model state: schedule of owners, house map (`house_map` as a
total function plus its domain `houseIds`) and the vacancy pool (a list of
house identifiers, in Python a list of house objects). -/
structure ModelState where
  ownerIds : List ℕ
  owners : ℕ → HomeOwner
  houseIds : List ℕ
  houses : ℕ → House
  vacancy_pool : List ℕ

/-! ## Utility model (`HomeOwner.calculate_satisfaction`, try2.py lines 89-110) -/

def calculate_satisfaction (a : HomeOwner) (target_house : House)
    (upgrade_cost moving_cost : ℚ) (bonus_energy : ℤ) : ℚ :=
  let projected_savings := a.savings - upgrade_cost - moving_cost
  let norm_financial := normalize projected_savings MIN_WEALTH MAX_WEALTH
  let projected_label := min (target_house.energy_label + bonus_energy) 7
  let norm_energy := normalize (projected_label : ℚ) 0 7
  let norm_quality := normalize target_house.quality 0 MAX_QUALITY
  WEIGHT_FINANCIAL * norm_financial + WEIGHT_ENVIRONMENT * norm_energy
    + WEIGHT_COMFORT * norm_quality

/-! ## Decision engine (`HomeOwner.step`, try2.py lines 112-146) -/

/-- Score of staying put (try2.py line 114). -/
def stayScore (s : ModelState) (a : HomeOwner) : ℚ :=
  calculate_satisfaction a (s.houses a.house) 0 0 0

/-- Score of upgrading, `-999` when the affordability/label gate fails
(try2.py lines 117-124). -/
def upgradeScore (s : ModelState) (a : HomeOwner) : ℚ :=
  if COST_PER_LABEL_UPGRADE < a.savings ∧ (s.houses a.house).energy_label < 7 then
    calculate_satisfaction a (s.houses a.house) COST_PER_LABEL_UPGRADE 0 1
  else -999

/-- One iteration of the scan over the vacancy pool (try2.py lines 130-135):
an affordable house whose satisfaction beats the running maximum replaces
`(best_market_house, S_move)`. -/
def scanBody (s : ModelState) (a : HomeOwner) (acc : Option ℕ × ℚ) (hid : ℕ) :
    Option ℕ × ℚ :=
  if (s.houses hid).market_value ≤ a.savings + calculate_mortgage_capacity a.income then
    if acc.2 < calculate_satisfaction a (s.houses hid) 0 MOVING_COST_FIXED 0 then
      (some hid, calculate_satisfaction a (s.houses hid) 0 MOVING_COST_FIXED 0)
    else acc
  else acc

/-- The scan over the vacancy pool (try2.py lines 127-135): returns
`(best_market_house, S_move)`, starting from `(None, -999)`. -/
def marketScan (s : ModelState) (a : HomeOwner) : Option ℕ × ℚ :=
  s.vacancy_pool.foldl (scanBody s a) (none, -999)

/-- One decision step of a home owner (try2.py lines 112-146).  Returns `none`
exactly when the `BUY` branch is taken with `best_market_house = None`
(in Python: `None.unique_id`, an `AttributeError`). -/
def decideOwner (s : ModelState) (a : HomeOwner) : Option HomeOwner :=
  if (marketScan s a).2 > upgradeScore s a ∧ (marketScan s a).2 > stayScore s a then
    match (marketScan s a).1 with
    | some hid => some { a with intention := Intention.Buy hid }
    | none => none
  else if upgradeScore s a > stayScore s a then
    some { a with intention := Intention.Upgrade }
  else
    some { a with intention := Intention.Stay }

/-- One owner's turn inside `self.schedule.step()`: the owner's record is
rewritten with the freshly decided intention. -/
def decideStep (acc : ModelState) (oid : ℕ) : Option ModelState :=
  match decideOwner acc (acc.owners oid) with
  | some a => some { acc with owners := Function.update acc.owners oid a }
  | none => none

/-- The decision phase of a tick: `self.schedule.step()` runs every owner's
`step` in schedule order; each owner only rewrites its own record. -/
def runDecisions (s : ModelState) : Option ModelState :=
  s.ownerIds.foldlM decideStep s

/-! ## Market clearing (`HousingModel.resolve_market_conflicts`, lines 197-219) -/

/-- Insert one bid into the insertion-ordered `bids` dictionary:
`bids[target].append(agent)`, creating the entry if absent. -/
def addBid : List (ℕ × List ℕ) → ℕ → ℕ → List (ℕ × List ℕ)
  | [], target, agent => [(target, [agent])]
  | (k, l) :: rest, target, agent =>
    if k = target then (k, l ++ [agent]) :: rest
    else (k, l) :: addBid rest target agent

/-- Recording of one agent's possible bid (try2.py lines 200-205). -/
def bidStep (s : ModelState) (bids : List (ℕ × List ℕ)) (oid : ℕ) :
    List (ℕ × List ℕ) :=
  match (s.owners oid).intention with
  | Intention.Buy target => addBid bids target oid
  | _ => bids

/-- Phase 1 of `resolve_market_conflicts` (try2.py lines 199-205): collect all
bids first, grouped by target house id, in schedule order. -/
def collectBids (s : ModelState) : List (ℕ × List ℕ) :=
  s.ownerIds.foldl (bidStep s) []

/-- Financial capacity used as sorting key (try2.py line 215). -/
def capacity (a : HomeOwner) : ℚ :=
  a.savings + calculate_mortgage_capacity a.income

/-- `sorted(potential_buyers, key=capacity, reverse=True)[0]`: the earliest
bidder with maximal capacity (Python's sort is stable); `none` models the
`IndexError` on an empty list. -/
def selectWinner (owners : ℕ → HomeOwner) : List ℕ → Option ℕ
  | [] => none
  | b :: rest =>
    some (rest.foldl (fun best x =>
      if capacity (owners best) < capacity (owners x) then x else best) b)

/-! ## State mutator (`HousingModel.execute_move`, try2.py lines 221-238) -/

/-- `execute_move(buyer, house_id)`: vacate the buyer's old house, transfer the
target house, pay the fixed moving cost.  `none` models the `KeyError` of
`self.house_map[house_id]` when `house_id` is not a known house. -/
def execute_move (s : ModelState) (buyerId house_id : ℕ) : Option ModelState :=
  let buyer := s.owners buyerId
  let oldId := buyer.house
  let houses1 := Function.update s.houses oldId
    { s.houses oldId with owner := none, is_vacant := true }
  let pool1 := s.vacancy_pool ++ [oldId]
  if house_id ∈ s.houseIds then
    let houses2 := Function.update houses1 house_id
      { houses1 house_id with owner := some buyerId, is_vacant := false }
    let pool2 := if house_id ∈ pool1 then pool1.erase house_id else pool1
    some { s with
      houses := houses2
      vacancy_pool := pool2
      owners := Function.update s.owners buyerId
        { buyer with savings := buyer.savings - MOVING_COST_FIXED, house := house_id } }
  else none

/-- The state produced by a successful `execute_move` (the `some` branch of
`execute_move`, written out field by field). -/
def movedState (s : ModelState) (w hid : ℕ) : ModelState :=
  { ownerIds := s.ownerIds
    owners := Function.update s.owners w
      { s.owners w with
        savings := (s.owners w).savings - MOVING_COST_FIXED, house := hid }
    houseIds := s.houseIds
    houses := Function.update
      (Function.update s.houses (s.owners w).house
        { s.houses (s.owners w).house with owner := none, is_vacant := true })
      hid
      { Function.update s.houses (s.owners w).house
          { s.houses (s.owners w).house with owner := none, is_vacant := true } hid
        with owner := some w, is_vacant := false }
    vacancy_pool :=
      if hid ∈ s.vacancy_pool ++ [(s.owners w).house] then
        (s.vacancy_pool ++ [(s.owners w).house]).erase hid
      else s.vacancy_pool ++ [(s.owners w).house] }

/-- Clearing of one contested house (try2.py lines 212-219): the winner is
selected from the *current* agent records and the move executed at once. -/
def clearOne (acc : ModelState) (p : ℕ × List ℕ) : Option ModelState :=
  match selectWinner acc.owners p.2 with
  | some w => execute_move acc w p.1
  | none => none

/-- Phase 2 of `resolve_market_conflicts` (try2.py lines 212-219): for each
contested house in bid-insertion order, pick the winner with the *current*
agent records and immediately execute the move. -/
def resolve_market_conflicts (s : ModelState) : Option ModelState :=
  (collectBids s).foldlM clearOne s

/-- Execution of one precomputed winner. -/
def execWinner (acc : ModelState) (p : ℕ × Option ℕ) : Option ModelState :=
  match p.2 with
  | some w => execute_move acc w p.1
  | none => none

/-- Reference resolver: winners of every contested asset are computed over the
frozen bid set (the pre-clearing state `s`) before any move is executed. -/
def resolveTwoPhase (s : ModelState) : Option ModelState :=
  ((collectBids s).map (fun p => (p.1, selectWinner s.owners p.2))).foldlM
    execWinner s

/-! ## Upgrades and the tick (`HousingModel.step`, try2.py lines 240-251) -/

/-- One owner's turn in the upgrade loop of `HousingModel.step`
(try2.py lines 245-249). -/
def upgradeStep (acc : ModelState) (oid : ℕ) : ModelState :=
  match (acc.owners oid).intention with
  | Intention.Upgrade =>
    { acc with
      houses := Function.update acc.houses (acc.owners oid).house
        (update_energy_label (acc.houses (acc.owners oid).house) 1)
      owners := Function.update acc.owners oid
        { acc.owners oid with
          savings := (acc.owners oid).savings - COST_PER_LABEL_UPGRADE
          intention := Intention.Stay } }
  | _ => acc

/-- The upgrade loop of `HousingModel.step` (try2.py lines 244-249). -/
def applyUpgrades (s : ModelState) : ModelState :=
  s.ownerIds.foldl upgradeStep s

/-- One tick: decisions, market clearing, upgrades (the data collector performs
no mutation and is omitted). -/
def modelStep (s : ModelState) : Option ModelState := do
  let s1 ← runDecisions s
  let s2 ← resolve_market_conflicts s1
  pure (applyUpgrades s2)

/-! ## Initialization (`HousingModel.__init__`, try2.py lines 154-195) -/

/-- A fresh house (owner `None`, not vacant), as built by `House.__init__`. -/
def initHouse (label : ℤ) (size quality price : ℚ) : House :=
  { energy_label := label, size := size, quality := quality
    market_value := price, owner := none, is_vacant := false }

/-- `HousingModel.__init__` with the random draws abstracted into attribute
functions: houses `0..n_houses-1` are created, the first `n_agents` of them get
owners `0..n_agents-1`, the rest are marked vacant and pooled in order. -/
def initState (n_agents n_houses : ℕ) (label : ℕ → ℤ) (size quality price : ℕ → ℚ)
    (income savings : ℕ → ℚ) : ModelState :=
  { ownerIds := List.range n_agents
    owners := fun i =>
      { income := income i, savings := savings i, house := i
        intention := Intention.Stay }
    houseIds := List.range n_houses
    houses := fun i =>
      if i < n_agents then
        { initHouse (label i) (size i) (quality i) (price i) with owner := some i }
      else
        { initHouse (label i) (size i) (quality i) (price i) with is_vacant := true }
    vacancy_pool := List.range' n_agents (n_houses - n_agents) }

/-- Reachable model states: an initial state with the documented attribute
ranges (in particular initial energy labels drawn from 0-5) followed by any
number of successful ticks. -/
inductive Reachable : ModelState → Prop
  | init (n_agents n_houses : ℕ) (label : ℕ → ℤ) (size quality price : ℕ → ℚ)
      (income savings : ℕ → ℚ)
      (hn : n_agents ≤ n_houses)
      (hlabel : ∀ i, 0 ≤ label i ∧ label i ≤ 5) :
      Reachable (initState n_agents n_houses label size quality price income savings)
  | step (s s' : ModelState) : Reachable s → modelStep s = some s' → Reachable s'

/-! ## Specification-side definitions -/

/-- Normalization as the specification words it: values at or below the lower
bound map to 0, at or above the upper bound to 1, in between linearly. -/
def normSpec (v lo hi : ℚ) : ℚ :=
  if v ≤ lo then 0 else if hi ≤ v then 1 else (v - lo) / (hi - lo)

/-- The satisfaction score exactly as the specification words it. -/
def satisfactionSpec (a : HomeOwner) (target_house : House)
    (upgrade_cost moving_cost : ℚ) (bonus_rating : ℤ) : ℚ :=
  0.4 * normSpec (a.savings - upgrade_cost - moving_cost) MIN_WEALTH MAX_WEALTH
    + 0.3 * normSpec ((min (target_house.energy_label + bonus_rating) 7 : ℤ) : ℚ) 0 7
    + 0.3 * normSpec target_house.quality 0 MAX_QUALITY

/-- Affordability of a candidate house during the market scan
(try2.py line 131). -/
@[reducible] def affordable (s : ModelState) (a : HomeOwner) (hid : ℕ) : Prop :=
  (s.houses hid).market_value ≤ a.savings + calculate_mortgage_capacity a.income

/-- The satisfaction a home owner attributes to moving into a given house. -/
@[reducible] def moveSat (s : ModelState) (a : HomeOwner) (hid : ℕ) : ℚ :=
  calculate_satisfaction a (s.houses hid) 0 MOVING_COST_FIXED 0

/-- The data-model invariant: identifier lists are duplicate-free, every house
is vacant exactly when it has no owner, the vacancy pool lists exactly the
vacant houses, and ownership links are a consistent 1:1 relation. -/
@[reducible] def Inv (s : ModelState) : Prop :=
  s.ownerIds.Nodup ∧
  s.houseIds.Nodup ∧
  s.vacancy_pool.Nodup ∧
  (∀ h ∈ s.vacancy_pool, h ∈ s.houseIds) ∧
  (∀ h ∈ s.houseIds, (h ∈ s.vacancy_pool ↔ (s.houses h).is_vacant = true)) ∧
  (∀ h ∈ s.houseIds, ((s.houses h).is_vacant = true ↔ (s.houses h).owner = none)) ∧
  (∀ o ∈ s.ownerIds, (s.owners o).house ∈ s.houseIds) ∧
  (∀ o ∈ s.ownerIds, (s.houses (s.owners o).house).owner = some o) ∧
  (∀ h ∈ s.houseIds, ∀ o ∈ ((s.houses h).owner).toList,
    o ∈ s.ownerIds ∧ (s.owners o).house = h)

/-- The list of all bidders over all entries of the bids dictionary. -/
def allBidders (bids : List (ℕ × List ℕ)) : List ℕ :=
  bids.foldr (fun p acc => p.2 ++ acc) []

/-- The keys (contested house ids) of the bids dictionary. -/
def bidKeys (bids : List (ℕ × List ℕ)) : List ℕ :=
  bids.map Prod.fst

/-! ## Concrete example states used by witnesses -/

/-- A two-owner, three-house state where owners 1 and 2 both bid on the vacant
house 30 with financial capacities 60000 and 45000 respectively. -/
def exBidState : ModelState :=
  { ownerIds := [1, 2]
    owners := fun i =>
      if i = 1 then ⟨10000, 10000, 10, Intention.Buy 30⟩
      else ⟨5000, 20000, 20, Intention.Buy 30⟩
    houseIds := [10, 20, 30]
    houses := fun i =>
      if i = 10 then ⟨3, 100, 1/2, 100000, some 1, false⟩
      else if i = 20 then ⟨3, 100, 1/2, 100000, some 2, false⟩
      else ⟨6, 100, 9/10, 100000, none, true⟩
    vacancy_pool := [30] }

/-- A home owner with savings below the upgrade cost, used to exercise the
decision engine. -/
def exPoorOwner : HomeOwner := ⟨30000, 1000, 10, Intention.Stay⟩

/-- An initial state (two agents, three houses) that reaches a strictly
negative savings balance after two ticks: agent 0 first upgrades
(5001 → 1) and then wins vacant house 1, paying the fixed moving cost. -/
def exInit : ModelState :=
  initState 2 3
    (fun i => if i = 0 then 0 else 5)
    (fun _ => 100)
    (fun i => if i = 0 then 0 else if i = 1 then 9/10 else 99/100)
    (fun i => if i = 2 then 160000 else 100000)
    (fun i => if i = 0 then 30000 else 40000)
    (fun i => if i = 0 then 5001 else 5000)

/-! ## Properties of `normalize` -/

theorem normalize_nonneg (v lo hi : ℚ) (h : lo ≤ hi) : 0 ≤ normalize v lo hi := by
  unfold normalize
  split
  · exact le_refl 0
  · next hne =>
    have hlt : lo < hi := lt_of_le_of_ne h (fun e => hne e.symm)
    apply div_nonneg
    · simp only [sub_nonneg, le_max_iff]
      exact Or.inl (le_refl lo)
    · linarith

theorem normalize_le_one (v lo hi : ℚ) (h : lo ≤ hi) : normalize v lo hi ≤ 1 := by
  unfold normalize
  split
  · norm_num
  · next hne =>
    have hlt : lo < hi := lt_of_le_of_ne h (fun e => hne e.symm)
    rw [div_le_one (by linarith)]
    have h1 : min v hi ≤ hi := min_le_right v hi
    have h2 : max lo (min v hi) ≤ hi := max_le h h1
    linarith

theorem normalize_mono (v v' lo hi : ℚ) (h : lo ≤ hi) (hv : v ≤ v') :
    normalize v lo hi ≤ normalize v' lo hi := by
  unfold normalize
  split
  · exact le_refl 0
  · next hne =>
    have hlt : lo < hi := lt_of_le_of_ne h (fun e => hne e.symm)
    apply div_le_div_of_nonneg_right _ (by linarith)
    apply sub_le_sub_right
    exact max_le_max (le_refl lo) (min_le_min_right hi hv)

theorem normalize_at_lo (v lo hi : ℚ) (h : lo ≤ hi) (hv : v ≤ lo) :
    normalize v lo hi = 0 := by
  unfold normalize
  split
  · rfl
  · next hne =>
    have hmin : min v hi = v := min_eq_left (le_trans hv h)
    have hmax : max lo (min v hi) = lo := by rw [hmin]; exact max_eq_left hv
    rw [hmax, sub_self, zero_div]

theorem normalize_at_hi (v lo hi : ℚ) (h : lo < hi) (hv : hi ≤ v) :
    normalize v lo hi = 1 := by
  unfold normalize
  split
  · next he => exact absurd he (ne_of_gt h)
  · have hmin : min v hi = hi := min_eq_right hv
    have hmax : max lo (min v hi) = hi := by rw [hmin]; exact max_eq_right (le_of_lt h)
    rw [hmax, div_self (by intro e; apply ne_of_gt h; linarith)]

theorem normalize_eq_normSpec (v lo hi : ℚ) (h : lo < hi) :
    normalize v lo hi = normSpec v lo hi := by
  unfold normSpec
  split
  · next hv => exact normalize_at_lo v lo hi (le_of_lt h) hv
  · split
    · next hv => exact normalize_at_hi v lo hi h hv
    · next hv1 hv2 =>
      unfold normalize
      rw [if_neg (fun e => absurd e (ne_of_gt h))]
      have hmin : min v hi = v := min_eq_left (by linarith)
      have hmax : max lo (min v hi) = v := by rw [hmin]; exact max_eq_right (by linarith)
      rw [hmax]

/-! ## C8 -/

/-- C8 counterexample: with `lo = hi = 0` (bounds satisfying `lo ≤ hi`) and
`v = 0 ≥ hi`, `normalize` returns 0, not 1 as the claim requires. -/
theorem C8_counterexample :
    (0 : ℚ) ≤ (0 : ℚ) ∧ (0 : ℚ) ≥ (0 : ℚ) ∧ normalize 0 0 0 ≠ 1 := by
  refine ⟨le_refl 0, le_refl 0, ?_⟩
  with_unfolding_all decide

/-- C8 (amended): for bounds `lo ≤ hi`, `normalize` is monotone non-decreasing
in `v` and returns 0 for every `v ≤ lo`; the value 1 at every `v ≥ hi` holds
provided `lo < hi` (at `lo = hi` the function returns 0 everywhere). -/
theorem C8_normalize_behaviour (v v' lo hi : ℚ) (h : lo ≤ hi) :
    (v ≤ v' → normalize v lo hi ≤ normalize v' lo hi) ∧
    (v ≤ lo → normalize v lo hi = 0) ∧
    (lo < hi → hi ≤ v → normalize v lo hi = 1) := by
  exact ⟨fun hv => normalize_mono v v' lo hi h hv,
    fun hv => normalize_at_lo v lo hi h hv,
    fun hlt hv => normalize_at_hi v lo hi hlt hv⟩

/-- C8 witness: the amended statement at `v = 2, v' = 3, lo = 0, hi = 2`. -/
theorem C8_witness : normalize 2 0 2 ≤ normalize 3 0 2 ∧ normalize (-1) 0 2 = 0 ∧
    normalize 3 0 2 = 1 := by
  refine ⟨(C8_normalize_behaviour 2 3 0 2 (by norm_num)).1 (by norm_num),
    (C8_normalize_behaviour (-1) 3 0 2 (by norm_num)).2.1 (by norm_num),
    (C8_normalize_behaviour 3 3 0 2 (by norm_num)).2.2 (by norm_num) (by norm_num)⟩

/-! ## C2: the utility model matches the specified weighted sum -/

/-- C2: `calculate_satisfaction` is the weighted sum
`0.4·norm_liquidity + 0.3·norm_rating + 0.3·norm_quality`, where liquidity
`savings − upgrade_cost − moving_cost` is normalized with clamping over
`[MIN_WEALTH, MAX_WEALTH]`, the rating `min(rating + bonus, 7)` over `[0,7]`
and the quality over `[0, MAX_QUALITY]`; the 0.3 comfort weight multiplies the
quality term and the 0.3 environment weight multiplies the rating term. -/
theorem C2_satisfaction_formula (a : HomeOwner) (target_house : House)
    (upgrade_cost moving_cost : ℚ) (bonus_rating : ℤ) :
    calculate_satisfaction a target_house upgrade_cost moving_cost bonus_rating
      = satisfactionSpec a target_house upgrade_cost moving_cost bonus_rating ∧
    calculate_satisfaction a target_house upgrade_cost moving_cost bonus_rating
      = WEIGHT_FINANCIAL * normalize (a.savings - upgrade_cost - moving_cost)
            MIN_WEALTH MAX_WEALTH
        + WEIGHT_ENVIRONMENT * normalize
            ((min (target_house.energy_label + bonus_rating) 7 : ℤ) : ℚ) 0 7
        + WEIGHT_COMFORT * normalize target_house.quality 0 MAX_QUALITY := by
  have hw : MIN_WEALTH < MAX_WEALTH := by with_unfolding_all decide
  have hq : (0 : ℚ) < MAX_QUALITY := by with_unfolding_all decide
  have h1 := normalize_eq_normSpec (a.savings - upgrade_cost - moving_cost)
    MIN_WEALTH MAX_WEALTH hw
  have h2 := normalize_eq_normSpec
    ((min (target_house.energy_label + bonus_rating) 7 : ℤ) : ℚ) 0 7 (by norm_num)
  have h3 := normalize_eq_normSpec target_house.quality 0 MAX_QUALITY hq
  constructor
  · simp only [calculate_satisfaction, satisfactionSpec, h1, h2, h3,
      WEIGHT_FINANCIAL, WEIGHT_ENVIRONMENT, WEIGHT_COMFORT]
  · simp only [calculate_satisfaction]

/-! ## Bounds on satisfaction scores -/

theorem calculate_satisfaction_nonneg (a : HomeOwner) (h : House) (uc mc : ℚ)
    (be : ℤ) : 0 ≤ calculate_satisfaction a h uc mc be := by
  have h1 := normalize_nonneg (a.savings - uc - mc) MIN_WEALTH MAX_WEALTH
    (by with_unfolding_all decide)
  have h2 := normalize_nonneg ((min (h.energy_label + be) 7 : ℤ) : ℚ) 0 7 (by norm_num)
  have h3 := normalize_nonneg h.quality 0 MAX_QUALITY (by with_unfolding_all decide)
  have hwf : (0 : ℚ) ≤ WEIGHT_FINANCIAL := by with_unfolding_all decide
  have hwe : (0 : ℚ) ≤ WEIGHT_ENVIRONMENT := by with_unfolding_all decide
  have hwc : (0 : ℚ) ≤ WEIGHT_COMFORT := by with_unfolding_all decide
  have m1 := mul_nonneg hwf h1
  have m2 := mul_nonneg hwe h2
  have m3 := mul_nonneg hwc h3
  simp only [calculate_satisfaction]
  linarith

theorem stayScore_nonneg (s : ModelState) (a : HomeOwner) : 0 ≤ stayScore s a :=
  calculate_satisfaction_nonneg a (s.houses a.house) 0 0 0

/-! ## The market scan -/

theorem scanBody_cases (s : ModelState) (a : HomeOwner) (acc : Option ℕ × ℚ)
    (hid : ℕ) :
    (affordable s a hid ∧ acc.2 < moveSat s a hid ∧
      scanBody s a acc hid = (some hid, moveSat s a hid)) ∨
    (affordable s a hid ∧ moveSat s a hid ≤ acc.2 ∧ scanBody s a acc hid = acc) ∨
    (¬ affordable s a hid ∧ scanBody s a acc hid = acc) := by
  by_cases haff : affordable s a hid
  · by_cases hlt : acc.2 < calculate_satisfaction a (s.houses hid) 0 MOVING_COST_FIXED 0
    · refine Or.inl ⟨haff, hlt, ?_⟩
      unfold scanBody
      rw [if_pos haff, if_pos hlt]
    · refine Or.inr (Or.inl ⟨haff, le_of_not_lt hlt, ?_⟩)
      unfold scanBody
      rw [if_pos haff, if_neg hlt]
  · refine Or.inr (Or.inr ⟨haff, ?_⟩)
    unfold scanBody
    rw [if_neg haff]

theorem scan_fold_spec (s : ModelState) (a : HomeOwner) (l : List ℕ)
    (acc : Option ℕ × ℚ) :
    (∀ hid ∈ l, affordable s a hid →
        moveSat s a hid ≤ (l.foldl (scanBody s a) acc).2) ∧
    (l.foldl (scanBody s a) acc = acc ∨
      ∃ b ∈ l, (l.foldl (scanBody s a) acc).1 = some b ∧ affordable s a b ∧
        (l.foldl (scanBody s a) acc).2 = moveSat s a b) ∧
    acc.2 ≤ (l.foldl (scanBody s a) acc).2 := by
  induction l generalizing acc with
  | nil => exact ⟨by simp, Or.inl rfl, le_refl _⟩
  | cons x xs ih =>
    have hfold : (x :: xs).foldl (scanBody s a) acc
        = xs.foldl (scanBody s a) (scanBody s a acc x) := rfl
    obtain ⟨ihAll, ihBest, ihMono⟩ := ih (scanBody s a acc x)
    have hsb : scanBody s a acc x = acc ∨
        (affordable s a x ∧ scanBody s a acc x = (some x, moveSat s a x)) := by
      rcases scanBody_cases s a acc x with ⟨h1, _, h3⟩ | ⟨_, _, h3⟩ | ⟨_, h3⟩
      · exact Or.inr ⟨h1, h3⟩
      · exact Or.inl h3
      · exact Or.inl h3
    have hacc2 : acc.2 ≤ (scanBody s a acc x).2 := by
      rcases scanBody_cases s a acc x with ⟨_, h2, h3⟩ | ⟨_, _, h3⟩ | ⟨_, h3⟩
      · rw [h3]; exact le_of_lt h2
      · rw [h3]
      · rw [h3]
    have hhead : affordable s a x → moveSat s a x ≤ (scanBody s a acc x).2 := by
      intro haffx
      rcases scanBody_cases s a acc x with ⟨_, _, h3⟩ | ⟨_, h2, h3⟩ | ⟨hna, _⟩
      · rw [h3]
      · rw [h3]; exact h2
      · exact absurd haffx hna
    refine ⟨?_, ?_, ?_⟩
    · intro hid hmem haffh
      rw [hfold]
      rcases List.mem_cons.mp hmem with he | hxs
      · rw [he]
        exact le_trans (hhead (he ▸ haffh)) ihMono
      · exact ihAll hid hxs haffh
    · rcases ihBest with hcase | ⟨b, hb, h1, h2, h3⟩
      · rcases hsb with he | ⟨haffx, he⟩
        · exact Or.inl (by rw [hfold, hcase, he])
        · refine Or.inr ⟨x, List.mem_cons_self x xs, ?_, haffx, ?_⟩
          · rw [hfold, hcase, he]
          · rw [hfold, hcase, he]
      · exact Or.inr ⟨b, List.mem_cons_of_mem x hb, by rw [hfold]; exact h1, h2,
          by rw [hfold]; exact h3⟩
    · rw [hfold]
      exact le_trans hacc2 ihMono

theorem marketScan_none (s : ModelState) (a : HomeOwner)
    (h : (marketScan s a).1 = none) : (marketScan s a).2 = -999 := by
  rcases (scan_fold_spec s a s.vacancy_pool (none, -999)).2.1 with hc | ⟨b, _, h1, _, _⟩
  · unfold marketScan at *; rw [hc]
  · unfold marketScan at *; rw [h] at h1; exact absurd h1 (by simp)

theorem marketScan_some_spec (s : ModelState) (a : HomeOwner) (b : ℕ)
    (h : (marketScan s a).1 = some b) :
    b ∈ s.vacancy_pool ∧ affordable s a b ∧ (marketScan s a).2 = moveSat s a b := by
  rcases (scan_fold_spec s a s.vacancy_pool (none, -999)).2.1 with hc | ⟨b', hb', h1, h2, h3⟩
  · unfold marketScan at h; rw [hc] at h; exact absurd h (by simp)
  · unfold marketScan at *
    rw [h] at h1
    obtain rfl : b' = b := by injection h1.symm
    exact ⟨hb', h2, h3⟩

theorem marketScan_best (s : ModelState) (a : HomeOwner) :
    ∀ hid ∈ s.vacancy_pool, affordable s a hid →
      moveSat s a hid ≤ (marketScan s a).2 :=
  (scan_fold_spec s a s.vacancy_pool (none, -999)).1

/-! ## The decision rule -/

theorem decideOwner_buy_iff (s : ModelState) (a : HomeOwner) :
    ((marketScan s a).2 > upgradeScore s a ∧ (marketScan s a).2 > stayScore s a) ↔
      ∃ t, (marketScan s a).1 = some t ∧
        decideOwner s a = some { a with intention := Intention.Buy t } := by
  constructor
  · intro hc
    have hpos : (0 : ℚ) ≤ stayScore s a := stayScore_nonneg s a
    have hne : (marketScan s a).1 ≠ none := by
      intro hnone
      have := marketScan_none s a hnone
      rw [this] at hc
      have : (-999 : ℚ) < 0 := by norm_num
      linarith [hc.2]
    obtain ⟨t, ht⟩ := Option.ne_none_iff_exists'.mp hne
    refine ⟨t, ht, ?_⟩
    unfold decideOwner
    rw [if_pos hc, ht]
  · rintro ⟨t, ht, hd⟩
    unfold decideOwner at hd
    by_cases hc : (marketScan s a).2 > upgradeScore s a ∧ (marketScan s a).2 > stayScore s a
    · exact hc
    · rw [if_neg hc] at hd
      split at hd
      · next =>
        have := congrArg (fun x => Option.map HomeOwner.intention x) hd
        simp at this
      · next =>
        have := congrArg (fun x => Option.map HomeOwner.intention x) hd
        simp at this

theorem decideOwner_upgrade_iff (s : ModelState) (a : HomeOwner)
    (hn : ¬((marketScan s a).2 > upgradeScore s a ∧ (marketScan s a).2 > stayScore s a)) :
    upgradeScore s a > stayScore s a ↔
      decideOwner s a = some { a with intention := Intention.Upgrade } := by
  unfold decideOwner
  rw [if_neg hn]
  constructor
  · intro hu; rw [if_pos hu]
  · intro hd
    by_cases hu : upgradeScore s a > stayScore s a
    · exact hu
    · rw [if_neg hu] at hd
      have := congrArg (fun x => Option.map HomeOwner.intention x) hd
      simp at this

theorem decideOwner_stay (s : ModelState) (a : HomeOwner)
    (hn : ¬((marketScan s a).2 > upgradeScore s a ∧ (marketScan s a).2 > stayScore s a))
    (hu : ¬ upgradeScore s a > stayScore s a) :
    decideOwner s a = some { a with intention := Intention.Stay } := by
  unfold decideOwner
  rw [if_neg hn, if_neg hu]

/-- C3: the decision engine picks `Buy(best affordable vacant asset)` exactly
when the best market score strictly beats both the upgrade and the stay scores;
otherwise `Upgrade` exactly when the upgrade score strictly beats the stay
score; otherwise `Stay`.  The first conjunct states that the scanned candidate
is indeed the best affordable vacant asset. -/
theorem C3_decision_rule (s : ModelState) (a : HomeOwner) :
    (∀ t, (marketScan s a).1 = some t →
      t ∈ s.vacancy_pool ∧ affordable s a t ∧ (marketScan s a).2 = moveSat s a t ∧
      ∀ hid ∈ s.vacancy_pool, affordable s a hid →
        moveSat s a hid ≤ moveSat s a t) ∧
    (((marketScan s a).2 > upgradeScore s a ∧ (marketScan s a).2 > stayScore s a) ↔
      ∃ t, (marketScan s a).1 = some t ∧
        decideOwner s a = some { a with intention := Intention.Buy t }) ∧
    (¬((marketScan s a).2 > upgradeScore s a ∧ (marketScan s a).2 > stayScore s a) →
      (upgradeScore s a > stayScore s a ↔
        decideOwner s a = some { a with intention := Intention.Upgrade })) ∧
    (¬((marketScan s a).2 > upgradeScore s a ∧ (marketScan s a).2 > stayScore s a) →
      ¬ upgradeScore s a > stayScore s a →
      decideOwner s a = some { a with intention := Intention.Stay }) := by
  refine ⟨?_, decideOwner_buy_iff s a, decideOwner_upgrade_iff s a, decideOwner_stay s a⟩
  intro t ht
  obtain ⟨hm, ha, he⟩ := marketScan_some_spec s a t ht
  refine ⟨hm, ha, he, ?_⟩
  intro hid hmem haffh
  rw [← he]
  exact marketScan_best s a hid hmem haffh

/-- C3 witness: in `exBidState`, the poor owner's best market option (house 30)
strictly beats upgrading and staying, so the decision is `Buy 30`. -/
theorem C3_witness :
    decideOwner exBidState exPoorOwner
      = some { exPoorOwner with intention := Intention.Buy 30 } := by
  obtain ⟨t, h1, h2⟩ := (C3_decision_rule exBidState exPoorOwner).2.1.mp
    (by constructor <;> with_unfolding_all decide)
  have : t = 30 := by
    have h30 : (marketScan exBidState exPoorOwner).1 = some 30 := by
      with_unfolding_all rfl
    rw [h30] at h1; injection h1.symm
  rw [this] at h2
  exact h2

/-- C6: the decision engine never selects `Upgrade` for an owner whose savings
are at most the fixed upgrade cost or whose current house already has energy
rating 7: the upgrade score is then the sentinel `-999`, which can never beat
the stay score, itself at least 0. -/
theorem C6_no_upgrade (s : ModelState) (a : HomeOwner) (a' : HomeOwner)
    (hd : decideOwner s a = some a')
    (hc : a.savings ≤ COST_PER_LABEL_UPGRADE ∨ (s.houses a.house).energy_label = 7) :
    a'.intention ≠ Intention.Upgrade ∧ upgradeScore s a = -999 ∧ 0 ≤ stayScore s a := by
  have hgate : ¬(COST_PER_LABEL_UPGRADE < a.savings ∧ (s.houses a.house).energy_label < 7) := by
    rcases hc with h | h
    · intro hg; exact absurd h (not_le_of_lt hg.1)
    · intro hg; rw [h] at hg; exact absurd hg.2 (lt_irrefl 7)
  have hup : upgradeScore s a = -999 := by unfold upgradeScore; rw [if_neg hgate]
  have hstay := stayScore_nonneg s a
  refine ⟨?_, hup, hstay⟩
  intro hint
  unfold decideOwner at hd
  split at hd
  · split at hd
    · next => injection hd with hd'; rw [← hd'] at hint; simp at hint
    · exact Option.noConfusion hd
  · split at hd
    · next hu =>
      rw [hup] at hu
      have : (-999 : ℚ) < 0 := by norm_num
      linarith
    · next => injection hd with hd'; rw [← hd'] at hint; simp at hint

/-- C6 witness: the poor owner (savings 1000 ≤ 5000) in `exBidState` is never
told to upgrade. -/
theorem C6_witness :
    ({ exPoorOwner with intention := Intention.Buy 30 } : HomeOwner).intention
      ≠ Intention.Upgrade ∧ upgradeScore exBidState exPoorOwner = -999 := by
  have h := C6_no_upgrade exBidState exPoorOwner
    { exPoorOwner with intention := Intention.Buy 30 }
    (by with_unfolding_all rfl)
    (Or.inl (by with_unfolding_all decide))
  exact ⟨h.1, h.2.1⟩

/-! ## The state mutator -/

theorem execute_move_eq (s : ModelState) (w hid : ℕ) :
    execute_move s w hid
      = if hid ∈ s.houseIds then some (movedState s w hid) else none := by
  simp only [execute_move, movedState]

theorem execute_move_isSome (s : ModelState) (w hid : ℕ) (h : hid ∈ s.houseIds) :
    execute_move s w hid = some (movedState s w hid) := by
  rw [execute_move_eq, if_pos h]

theorem execute_move_none (s : ModelState) (w hid : ℕ) (h : hid ∉ s.houseIds) :
    execute_move s w hid = none := by
  rw [execute_move_eq, if_neg h]

theorem movedState_owners_self (s : ModelState) (w hid : ℕ) :
    (movedState s w hid).owners w
      = { s.owners w with
          savings := (s.owners w).savings - MOVING_COST_FIXED, house := hid } := by
  simp only [movedState]
  rw [Function.update_same]

theorem movedState_owners_other (s : ModelState) (w hid o : ℕ) (h : o ≠ w) :
    (movedState s w hid).owners o = s.owners o := by
  simp only [movedState]
  rw [Function.update_noteq h]

theorem movedState_houses_target (s : ModelState) (w hid : ℕ)
    (hne : (s.owners w).house ≠ hid) :
    (movedState s w hid).houses hid
      = { s.houses hid with owner := some w, is_vacant := false } := by
  simp only [movedState]
  rw [Function.update_same, Function.update_noteq (Ne.symm hne)]

theorem movedState_houses_old (s : ModelState) (w hid : ℕ)
    (hne : (s.owners w).house ≠ hid) :
    (movedState s w hid).houses (s.owners w).house
      = { s.houses (s.owners w).house with owner := none, is_vacant := true } := by
  simp only [movedState]
  rw [Function.update_noteq hne, Function.update_same]

theorem movedState_houses_other (s : ModelState) (w hid x : ℕ)
    (h1 : x ≠ (s.owners w).house) (h2 : x ≠ hid) :
    (movedState s w hid).houses x = s.houses x := by
  simp only [movedState]
  rw [Function.update_noteq h2, Function.update_noteq h1]

theorem movedState_pool (s : ModelState) (w hid : ℕ) (h : hid ∈ s.vacancy_pool) :
    (movedState s w hid).vacancy_pool
      = (s.vacancy_pool ++ [(s.owners w).house]).erase hid := by
  simp only [movedState]
  rw [if_pos (List.mem_append_left _ h)]

/-- The basic facts `Inv` gives about a winner `w` and a vacant target `hid`. -/
theorem Inv_move_facts (s : ModelState) (w hid : ℕ) (hInv : Inv s)
    (hw : w ∈ s.ownerIds) (hpool : hid ∈ s.vacancy_pool) :
    hid ∈ s.houseIds ∧ (s.houses hid).is_vacant = true ∧
    (s.houses hid).owner = none ∧ (s.owners w).house ∈ s.houseIds ∧
    (s.houses (s.owners w).house).owner = some w ∧
    (s.houses (s.owners w).house).is_vacant = false ∧
    (s.owners w).house ∉ s.vacancy_pool ∧ (s.owners w).house ≠ hid := by
  obtain ⟨hNodupO, hNodupH, hNodupP, hPoolSub, hPoolIff, hXor, hDom, hBack, hRef⟩ := hInv
  have h1 : hid ∈ s.houseIds := hPoolSub hid hpool
  have h2 : (s.houses hid).is_vacant = true := (hPoolIff hid h1).mp hpool
  have h3 : (s.houses hid).owner = none := (hXor hid h1).mp h2
  have h4 : (s.owners w).house ∈ s.houseIds := hDom w hw
  have h5 : (s.houses (s.owners w).house).owner = some w := hBack w hw
  have h6 : (s.houses (s.owners w).house).is_vacant = false := by
    rcases Bool.eq_false_or_eq_true (s.houses (s.owners w).house).is_vacant with hb | hb
    · rw [(hXor _ h4).mp hb] at h5; exact Option.noConfusion h5
    · exact hb
  have h8 : (s.owners w).house ≠ hid := by
    intro he; rw [he, h3] at h5; exact Option.noConfusion h5
  have h7 : (s.owners w).house ∉ s.vacancy_pool := by
    intro hmem
    have := (hPoolIff _ h4).mp hmem
    rw [h6] at this; exact Bool.noConfusion this
  exact ⟨h1, h2, h3, h4, h5, h6, h7, h8⟩

/-- A successful move from an invariant state preserves the invariant. -/
theorem movedState_Inv (s : ModelState) (w hid : ℕ) (hInv : Inv s)
    (hw : w ∈ s.ownerIds) (hpool : hid ∈ s.vacancy_pool) :
    Inv (movedState s w hid) := by
  obtain ⟨hDomH, hVac, hOwnNone, hOldDom, hOldOwn, hOldVac, hOldPool, hNe⟩ :=
    Inv_move_facts s w hid hInv hw hpool
  obtain ⟨hNodupO, hNodupH, hNodupP, hPoolSub, hPoolIff, hXor, hDom, hBack, hRef⟩ := hInv
  have hPoolAppNodup : (s.vacancy_pool ++ [(s.owners w).house]).Nodup := by
    rw [List.nodup_append]
    exact ⟨hNodupP, List.nodup_singleton _,
      fun x hx hy => hOldPool (by rwa [List.mem_singleton.mp hy] at hx)⟩
  have hPoolEq := movedState_pool s w hid hpool
  have hMemPool : ∀ x, x ∈ (movedState s w hid).vacancy_pool ↔
      (x ≠ hid ∧ (x ∈ s.vacancy_pool ∨ x = (s.owners w).house)) := by
    intro x
    rw [hPoolEq, hPoolAppNodup.mem_erase_iff]
    constructor
    · rintro ⟨hx1, hx2⟩
      rcases List.mem_append.mp hx2 with hx | hx
      · exact ⟨hx1, Or.inl hx⟩
      · exact ⟨hx1, Or.inr (List.mem_singleton.mp hx)⟩
    · rintro ⟨hx1, hx2⟩
      refine ⟨hx1, ?_⟩
      rcases hx2 with hx | hx
      · exact List.mem_append_left _ hx
      · exact List.mem_append_right _ (List.mem_singleton.mpr hx)
  refine ⟨?_, ?_, ?_, ?_, ?_, ?_, ?_, ?_, ?_⟩
  · exact hNodupO
  · exact hNodupH
  · rw [hPoolEq]; exact hPoolAppNodup.erase hid
  · intro x hx
    rcases ((hMemPool x).mp hx).2 with h | h
    · exact hPoolSub x h
    · rw [h]; exact hOldDom
  · intro x hxdom
    rw [hMemPool x]
    by_cases hx2 : x = hid
    · subst hx2
      rw [movedState_houses_target s w x hNe]
      simp
    · by_cases hx1 : x = (s.owners w).house
      · subst hx1
        rw [movedState_houses_old s w hid hNe]
        simp [hx2]
      · rw [movedState_houses_other s w hid x hx1 hx2]
        constructor
        · rintro ⟨_, hmem | he⟩
          · exact (hPoolIff x hxdom).mp hmem
          · exact absurd he hx1
        · intro hvac
          exact ⟨hx2, Or.inl ((hPoolIff x hxdom).mpr hvac)⟩
  · intro x hxdom
    by_cases hx2 : x = hid
    · subst hx2
      rw [movedState_houses_target s w x hNe]
      simp
    · by_cases hx1 : x = (s.owners w).house
      · subst hx1
        rw [movedState_houses_old s w hid hNe]
        simp
      · rw [movedState_houses_other s w hid x hx1 hx2]
        exact hXor x hxdom
  · intro o ho
    by_cases how : o = w
    · subst how
      rw [movedState_owners_self]
      exact hDomH
    · rw [movedState_owners_other s w hid o how]
      exact hDom o ho
  · intro o ho
    by_cases how : o = w
    · subst how
      rw [movedState_owners_self]
      rw [movedState_houses_target s o hid hNe]
    · rw [movedState_owners_other s w hid o how]
      have hne2 : (s.owners o).house ≠ hid := by
        intro he
        have := hBack o ho
        rw [he, hOwnNone] at this
        exact Option.noConfusion this
      have hne1 : (s.owners o).house ≠ (s.owners w).house := by
        intro he
        have h1 := hBack o ho
        rw [he, hOldOwn] at h1
        injection h1 with h1
        exact how h1.symm
      rw [movedState_houses_other s w hid _ hne1 hne2]
      exact hBack o ho
  · intro x hxdom o ho
    by_cases hx2 : x = hid
    · subst hx2
      rw [movedState_houses_target s w x hNe] at ho
      simp only [Option.toList_some, List.mem_singleton] at ho
      subst ho
      exact ⟨hw, by rw [movedState_owners_self]⟩
    · by_cases hx1 : x = (s.owners w).house
      · subst hx1
        rw [movedState_houses_old s w hid hNe] at ho
        simp at ho
      · rw [movedState_houses_other s w hid x hx1 hx2] at ho
        obtain ⟨ho1, ho2⟩ := hRef x hxdom o ho
        refine ⟨ho1, ?_⟩
        have how : o ≠ w := by
          intro he
          rw [he] at ho2
          exact hx1 ho2.symm
        rw [movedState_owners_other s w hid o how]
        exact ho2

/-! ## Winner selection (C4) -/

theorem selectWinner_fold_mem (owners : ℕ → HomeOwner) (rest : List ℕ) (b : ℕ) :
    rest.foldl (fun best x =>
      if capacity (owners best) < capacity (owners x) then x else best) b
      ∈ b :: rest := by
  induction rest generalizing b with
  | nil => exact List.mem_singleton.mpr rfl
  | cons x xs ih =>
    have hstep : (x :: xs).foldl (fun best y =>
        if capacity (owners best) < capacity (owners y) then y else best) b
        = xs.foldl (fun best y =>
          if capacity (owners best) < capacity (owners y) then y else best)
          (if capacity (owners b) < capacity (owners x) then x else b) := rfl
    rw [hstep]
    have := ih (if capacity (owners b) < capacity (owners x) then x else b)
    rcases List.mem_cons.mp this with he | hxs
    · rw [he]
      split
      · exact List.mem_cons_of_mem _ (List.mem_cons_self _ _)
      · exact List.mem_cons_self _ _
    · exact List.mem_cons_of_mem _ (List.mem_cons_of_mem _ hxs)

theorem selectWinner_fold_max (owners : ℕ → HomeOwner) (rest : List ℕ) (b : ℕ) :
    capacity (owners b) ≤ capacity (owners (rest.foldl (fun best x =>
      if capacity (owners best) < capacity (owners x) then x else best) b)) ∧
    ∀ x ∈ rest, capacity (owners x) ≤ capacity (owners (rest.foldl (fun best x =>
      if capacity (owners best) < capacity (owners x) then x else best) b)) := by
  induction rest generalizing b with
  | nil => exact ⟨le_refl _, by simp⟩
  | cons x xs ih =>
    have hstep : (x :: xs).foldl (fun best y =>
        if capacity (owners best) < capacity (owners y) then y else best) b
        = xs.foldl (fun best y =>
          if capacity (owners best) < capacity (owners y) then y else best)
          (if capacity (owners b) < capacity (owners x) then x else b) := rfl
    obtain ⟨ih1, ih2⟩ := ih (if capacity (owners b) < capacity (owners x) then x else b)
    have hb : capacity (owners b)
        ≤ capacity (owners (if capacity (owners b) < capacity (owners x) then x else b)) := by
      split
      · next hlt => exact le_of_lt hlt
      · exact le_refl _
    have hx : capacity (owners x)
        ≤ capacity (owners (if capacity (owners b) < capacity (owners x) then x else b)) := by
      split
      · exact le_refl _
      · next hlt => exact le_of_not_lt hlt
    refine ⟨?_, ?_⟩
    · rw [hstep]; exact le_trans hb ih1
    · intro y hy
      rw [hstep]
      rcases List.mem_cons.mp hy with he | hys
      · rw [he]; exact le_trans hx ih1
      · exact ih2 y hys

theorem selectWinner_mem (owners : ℕ → HomeOwner) (l : List ℕ) (w : ℕ)
    (h : selectWinner owners l = some w) : w ∈ l := by
  cases l with
  | nil => exact Option.noConfusion h
  | cons b rest =>
    unfold selectWinner at h
    injection h with h
    rw [← h]
    exact selectWinner_fold_mem owners rest b

theorem selectWinner_max (owners : ℕ → HomeOwner) (l : List ℕ) (w : ℕ)
    (h : selectWinner owners l = some w) :
    ∀ x ∈ l, capacity (owners x) ≤ capacity (owners w) := by
  cases l with
  | nil => exact Option.noConfusion h
  | cons b rest =>
    unfold selectWinner at h
    injection h with h
    intro x hx
    rw [← h]
    rcases List.mem_cons.mp hx with he | hxs
    · rw [he]; exact (selectWinner_fold_max owners rest b).1
    · exact (selectWinner_fold_max owners rest b).2 x hxs

theorem selectWinner_strict_max (owners : ℕ → HomeOwner) (l : List ℕ) (w : ℕ)
    (hw : w ∈ l)
    (hmax : ∀ b ∈ l, b ≠ w → capacity (owners b) < capacity (owners w)) :
    selectWinner owners l = some w := by
  cases l with
  | nil => cases hw
  | cons b rest =>
    have hr : ∃ r, selectWinner owners (b :: rest) = some r := ⟨_, rfl⟩
    obtain ⟨r, hrEq⟩ := hr
    have hrMem := selectWinner_mem owners (b :: rest) r hrEq
    by_cases hrw : r = w
    · rw [hrEq, hrw]
    · have h1 := hmax r hrMem hrw
      have h2 := selectWinner_max owners (b :: rest) r hrEq w hw
      exact absurd h1 (not_lt_of_le h2)

/-- C4: for a contested asset, the bidder with strictly greatest financial
capacity (`savings + 5·income`) is selected as the unique winner, the move
succeeds, and every losing bidder's record and currently occupied house are
left unchanged by the resolution of that asset. -/
theorem C4_strict_max_wins (s : ModelState) (k : ℕ) (g : List ℕ) (w : ℕ)
    (hInv : Inv s) (hk : k ∈ s.vacancy_pool) (hg : ∀ b ∈ g, b ∈ s.ownerIds)
    (hw : w ∈ g)
    (hmax : ∀ b ∈ g, b ≠ w → capacity (s.owners b) < capacity (s.owners w)) :
    selectWinner s.owners g = some w ∧
    execute_move s w k = some (movedState s w k) ∧
    ∀ b ∈ g, b ≠ w →
      (movedState s w k).owners b = s.owners b ∧
      (movedState s w k).houses (s.owners b).house = s.houses (s.owners b).house := by
  obtain ⟨hDomH, hVac, hOwnNone, hOldDom, hOldOwn, hOldVac, hOldPool, hNe⟩ :=
    Inv_move_facts s w k hInv (hg w hw) hk
  obtain ⟨hNodupO, hNodupH, hNodupP, hPoolSub, hPoolIff, hXor, hDom, hBack, hRef⟩ := hInv
  refine ⟨selectWinner_strict_max s.owners g w hw hmax,
    execute_move_isSome s w k hDomH, ?_⟩
  intro b hb hbw
  have hbo : b ∈ s.ownerIds := hg b hb
  have hne2 : (s.owners b).house ≠ k := by
    intro he
    have := hBack b hbo
    rw [he, hOwnNone] at this
    exact Option.noConfusion this
  have hne1 : (s.owners b).house ≠ (s.owners w).house := by
    intro he
    have h1 := hBack b hbo
    rw [he, hOldOwn] at h1
    injection h1 with h1
    exact hbw h1.symm
  exact ⟨movedState_owners_other s w k b hbw,
    movedState_houses_other s w k _ hne1 hne2⟩

/-- C4 witness: in `exBidState`, bidders 1 (capacity 60000) and 2 (capacity
45000) contest house 30; bidder 1 wins and bidder 2's record and house 20 are
unchanged. -/
theorem C4_witness :
    selectWinner exBidState.owners [1, 2] = some 1 ∧
    execute_move exBidState 1 30 = some (movedState exBidState 1 30) ∧
    (movedState exBidState 1 30).owners 2 = exBidState.owners 2 ∧
    (movedState exBidState 1 30).houses 20 = exBidState.houses 20 ∧
    capacity (exBidState.owners 1) = 60000 ∧
    capacity (exBidState.owners 2) = 45000 := by
  have h := C4_strict_max_wins exBidState 30 [1, 2] 1
    (by with_unfolding_all decide)
    (by with_unfolding_all decide)
    (by with_unfolding_all decide)
    (by with_unfolding_all decide)
    (by with_unfolding_all decide)
  obtain ⟨h1, h2, h3⟩ := h
  have h4 := h3 2 (by with_unfolding_all decide) (by with_unfolding_all decide)
  have h20 : (exBidState.owners 2).house = 20 := by with_unfolding_all rfl
  refine ⟨h1, h2, h4.1, ?_, ?_, ?_⟩
  · rw [← h20]; exact h4.2
  · with_unfolding_all rfl
  · with_unfolding_all rfl

/-! ## The decision phase -/

theorem decideOwner_fields (s : ModelState) (a a' : HomeOwner)
    (h : decideOwner s a = some a') :
    a'.savings = a.savings ∧ a'.income = a.income ∧ a'.house = a.house := by
  unfold decideOwner at h
  split at h
  · split at h
    · injection h with h; rw [← h]; exact ⟨rfl, rfl, rfl⟩
    · exact Option.noConfusion h
  · split at h
    · injection h with h; rw [← h]; exact ⟨rfl, rfl, rfl⟩
    · injection h with h; rw [← h]; exact ⟨rfl, rfl, rfl⟩

theorem decideOwner_isSome (s : ModelState) (a : HomeOwner) :
    ∃ a', decideOwner s a = some a' := by
  unfold decideOwner
  by_cases hc : (marketScan s a).2 > upgradeScore s a ∧ (marketScan s a).2 > stayScore s a
  · rw [if_pos hc]
    have hne : (marketScan s a).1 ≠ none := by
      intro hnone
      have h999 := marketScan_none s a hnone
      have hpos := stayScore_nonneg s a
      rw [h999] at hc
      have : (-999 : ℚ) < 0 := by norm_num
      linarith [hc.2]
    obtain ⟨t, ht⟩ := Option.ne_none_iff_exists'.mp hne
    rw [ht]
    exact ⟨_, rfl⟩
  · rw [if_neg hc]
    split
    · exact ⟨_, rfl⟩
    · exact ⟨_, rfl⟩

theorem decideOwner_buy_target (s : ModelState) (a a' : HomeOwner) (t : ℕ)
    (h : decideOwner s a = some a') (hb : a'.intention = Intention.Buy t) :
    t ∈ s.vacancy_pool := by
  unfold decideOwner at h
  split at h
  · split at h
    · next hid hscan =>
      injection h with h
      rw [← h] at hb
      simp only at hb
      injection hb with hb
      subst hb
      exact (marketScan_some_spec s a _ hscan).1
    · exact Option.noConfusion h
  · split at h
    · injection h with h; rw [← h] at hb; simp at hb
    · injection h with h; rw [← h] at hb; simp at hb

theorem decideOwner_upgrade_gate (s : ModelState) (a a' : HomeOwner)
    (h : decideOwner s a = some a') (hu : a'.intention = Intention.Upgrade) :
    COST_PER_LABEL_UPGRADE < a.savings ∧ (s.houses a.house).energy_label < 7 := by
  by_contra hgate
  have hscore : upgradeScore s a = -999 := by
    unfold upgradeScore; rw [if_neg hgate]
  unfold decideOwner at h
  split at h
  · split at h
    · injection h with h; rw [← h] at hu; simp at hu
    · exact Option.noConfusion h
  · split at h
    · next hcmp =>
      rw [hscore] at hcmp
      have hpos := stayScore_nonneg s a
      have : (-999 : ℚ) < 0 := by norm_num
      linarith
    · injection h with h; rw [← h] at hu; simp at hu

theorem decideOwner_congr (s s' : ModelState) (a : HomeOwner)
    (hh : s.houses = s'.houses) (hp : s.vacancy_pool = s'.vacancy_pool) :
    decideOwner s a = decideOwner s' a := by
  have hstay : stayScore s a = stayScore s' a := by unfold stayScore; rw [hh]
  have hup : upgradeScore s a = upgradeScore s' a := by unfold upgradeScore; rw [hh]
  have hbody : scanBody s a = scanBody s' a := by
    funext acc hid; unfold scanBody; rw [hh]
  have hscan : marketScan s a = marketScan s' a := by
    unfold marketScan; rw [hp, hbody]
  unfold decideOwner
  rw [hstay, hup, hscan]

theorem decide_fold_spec (l : List ℕ) (t : ModelState) (hnd : l.Nodup) :
    ∃ t₁, l.foldlM decideStep t = some t₁ ∧
      t₁.ownerIds = t.ownerIds ∧ t₁.houseIds = t.houseIds ∧
      t₁.houses = t.houses ∧ t₁.vacancy_pool = t.vacancy_pool ∧
      (∀ o, o ∉ l → t₁.owners o = t.owners o) ∧
      (∀ o ∈ l, decideOwner t (t.owners o) = some (t₁.owners o)) := by
  induction l generalizing t with
  | nil => exact ⟨t, rfl, rfl, rfl, rfl, rfl, fun o _ => rfl, by simp⟩
  | cons o rest ih =>
    obtain ⟨a', ha'⟩ := decideOwner_isSome t (t.owners o)
    have hstep : decideStep t o
        = some { t with owners := Function.update t.owners o a' } := by
      unfold decideStep; rw [ha']
    have hfold : (o :: rest).foldlM decideStep t
        = rest.foldlM decideStep { t with owners := Function.update t.owners o a' } := by
      show (decideStep t o) >>= (rest.foldlM decideStep ·) = _
      rw [hstep]
      rfl
    have hrestnd : rest.Nodup := (List.nodup_cons.mp hnd).2
    have honotin : o ∉ rest := (List.nodup_cons.mp hnd).1
    obtain ⟨t₁, h1, h2, h3, h4, h5, h6, h7⟩ :=
      ih { t with owners := Function.update t.owners o a' } hrestnd
    refine ⟨t₁, by rw [hfold]; exact h1, h2, h3, h4, h5, ?_, ?_⟩
    · intro x hx
      have hxo : x ≠ o := fun he => hx (he ▸ List.mem_cons_self o rest)
      have hxr : x ∉ rest := fun hr => hx (List.mem_cons_of_mem o hr)
      rw [h6 x hxr]
      simp only
      rw [Function.update_noteq hxo]
    · intro x hx
      rcases List.mem_cons.mp hx with he | hr
      · subst he
        rw [h6 x honotin]
        simp only
        rw [Function.update_same]
        exact ha'
      · have hxo : x ≠ o := fun he => honotin (he ▸ hr)
        have hthis := h7 x hr
        have h9 : decideOwner t (t.owners x)
            = decideOwner { t with owners := Function.update t.owners o a' }
                (Function.update t.owners o a' x) := by
          rw [Function.update_noteq hxo]
          exact decideOwner_congr t _ (t.owners x) rfl rfl
        rw [h9]
        exact hthis

theorem runDecisions_spec (s : ModelState) (hnd : s.ownerIds.Nodup) :
    ∃ s₁, runDecisions s = some s₁ ∧
      s₁.ownerIds = s.ownerIds ∧ s₁.houseIds = s.houseIds ∧
      s₁.houses = s.houses ∧ s₁.vacancy_pool = s.vacancy_pool ∧
      (∀ o, o ∉ s.ownerIds → s₁.owners o = s.owners o) ∧
      (∀ o ∈ s.ownerIds, decideOwner s (s.owners o) = some (s₁.owners o)) :=
  decide_fold_spec s.ownerIds s hnd

/-! ## Properties of the bids dictionary -/

theorem allBidders_cons (p : ℕ × List ℕ) (bids : List (ℕ × List ℕ)) :
    allBidders (p :: bids) = p.2 ++ allBidders bids := rfl

theorem allBidders_addBid_perm (bids : List (ℕ × List ℕ)) (t a : ℕ) :
    (allBidders (addBid bids t a)).Perm (a :: allBidders bids) := by
  induction bids with
  | nil => simp [addBid, allBidders]
  | cons p rest ih =>
    obtain ⟨k, l⟩ := p
    unfold addBid
    by_cases hk : k = t
    · rw [if_pos hk]
      rw [allBidders_cons, allBidders_cons]
      simp only
      have : (l ++ [a]) ++ allBidders rest = l ++ a :: allBidders rest := by
        rw [List.append_assoc]; rfl
      rw [this]
      exact List.perm_middle
    · rw [if_neg hk]
      rw [allBidders_cons, allBidders_cons]
      simp only
      exact List.Perm.trans (List.Perm.append_left l ih) List.perm_middle

theorem bidKeys_addBid (bids : List (ℕ × List ℕ)) (t a : ℕ) :
    bidKeys (addBid bids t a)
      = if t ∈ bidKeys bids then bidKeys bids else bidKeys bids ++ [t] := by
  induction bids with
  | nil => simp [addBid, bidKeys]
  | cons p rest ih =>
    obtain ⟨k, l⟩ := p
    unfold addBid
    by_cases hk : k = t
    · rw [if_pos hk]
      have hmem : t ∈ bidKeys ((k, l) :: rest) := by
        simp [bidKeys, hk.symm]
      rw [if_pos hmem]
      simp [bidKeys]
    · rw [if_neg hk]
      have hkeys : bidKeys ((k, l) :: addBid rest t a)
          = k :: bidKeys (addBid rest t a) := rfl
      have hkeys2 : bidKeys ((k, l) :: rest) = k :: bidKeys rest := rfl
      rw [hkeys, ih, hkeys2]
      by_cases hmem : t ∈ bidKeys rest
      · rw [if_pos hmem, if_pos (List.mem_cons_of_mem k hmem)]
      · rw [if_neg hmem, if_neg (by
          intro hc
          rcases List.mem_cons.mp hc with he | hm
          · exact hk he.symm
          · exact hmem hm)]
        rfl

theorem bidKeys_addBid_nodup (bids : List (ℕ × List ℕ)) (t a : ℕ)
    (h : (bidKeys bids).Nodup) : (bidKeys (addBid bids t a)).Nodup := by
  rw [bidKeys_addBid]
  split
  · exact h
  · next hmem =>
    rw [List.nodup_append]
    exact ⟨h, List.nodup_singleton t,
      fun x hx hy => hmem (by rwa [List.mem_singleton.mp hy] at hx)⟩

theorem addBid_groups (R : ℕ → ℕ → Prop) (bids : List (ℕ × List ℕ)) (t a : ℕ)
    (hb : ∀ p ∈ bids, p.2 ≠ [] ∧ ∀ m ∈ p.2, R p.1 m) (ha : R t a) :
    ∀ p ∈ addBid bids t a, p.2 ≠ [] ∧ ∀ m ∈ p.2, R p.1 m := by
  induction bids with
  | nil =>
    intro p hp
    simp only [addBid] at hp
    rw [List.mem_singleton.mp hp]
    refine ⟨List.cons_ne_nil a [], ?_⟩
    intro m hm
    rw [List.mem_singleton.mp hm]
    exact ha
  | cons q rest ih =>
    obtain ⟨k, l⟩ := q
    intro p hp
    unfold addBid at hp
    by_cases hk : k = t
    · rw [if_pos hk] at hp
      rcases List.mem_cons.mp hp with he | hm
      · subst he
        obtain ⟨hne, hall⟩ := hb (k, l) (List.mem_cons_self _ _)
        refine ⟨by simp, ?_⟩
        intro m hm
        rcases List.mem_append.mp hm with h1 | h1
        · exact hall m h1
        · rw [List.mem_singleton.mp h1, hk]
          exact ha
      · exact hb p (List.mem_cons_of_mem _ hm)
    · rw [if_neg hk] at hp
      rcases List.mem_cons.mp hp with he | hm
      · subst he
        exact hb (k, l) (List.mem_cons_self _ _)
      · exact ih (fun q hq => hb q (List.mem_cons_of_mem _ hq)) p hm

theorem bids_fold_spec (s : ModelState) (l : List ℕ) (bids₀ : List (ℕ × List ℕ))
    (hsub : ∀ m ∈ l, m ∈ s.ownerIds)
    (hnd : (allBidders bids₀ ++ l).Nodup)
    (hkeys : (bidKeys bids₀).Nodup)
    (hgroups : ∀ p ∈ bids₀, p.2 ≠ [] ∧ ∀ m ∈ p.2,
      m ∈ s.ownerIds ∧ (s.owners m).intention = Intention.Buy p.1) :
    (∀ p ∈ l.foldl (bidStep s) bids₀, p.2 ≠ [] ∧ ∀ m ∈ p.2,
      m ∈ s.ownerIds ∧ (s.owners m).intention = Intention.Buy p.1) ∧
    (bidKeys (l.foldl (bidStep s) bids₀)).Nodup ∧
    (allBidders (l.foldl (bidStep s) bids₀)).Nodup := by
  induction l generalizing bids₀ with
  | nil =>
    refine ⟨hgroups, hkeys, ?_⟩
    have := hnd
    rw [List.append_nil] at this
    exact this
  | cons o rest ih =>
    have hfold : (o :: rest).foldl (bidStep s) bids₀
        = rest.foldl (bidStep s) (bidStep s bids₀ o) := rfl
    rw [hfold]
    have hcase : bidStep s bids₀ o = bids₀ ∨
        ∃ t, (s.owners o).intention = Intention.Buy t ∧
          bidStep s bids₀ o = addBid bids₀ t o := by
      unfold bidStep
      cases hint : (s.owners o).intention with
      | Stay => exact Or.inl rfl
      | Upgrade => exact Or.inl rfl
      | Buy t => exact Or.inr ⟨t, rfl, rfl⟩
    rcases hcase with hbs | ⟨t, hint, hbs⟩
    · rw [hbs]
      apply ih bids₀ (fun m hm => hsub m (List.mem_cons_of_mem _ hm)) _ hkeys hgroups
      have hperm : (allBidders bids₀ ++ o :: rest).Perm
          (o :: (allBidders bids₀ ++ rest)) := List.perm_middle
      have := hperm.nodup hnd
      exact (List.nodup_cons.mp this).2
    · rw [hbs]
      have hperm0 : (allBidders bids₀ ++ o :: rest).Perm
          (o :: (allBidders bids₀ ++ rest)) := List.perm_middle
      have hnd0 := hperm0.nodup hnd
      have honotin : o ∉ allBidders bids₀ ++ rest := (List.nodup_cons.mp hnd0).1
      have hnd1 : (allBidders bids₀ ++ rest).Nodup := (List.nodup_cons.mp hnd0).2
      apply ih (addBid bids₀ t o) (fun m hm => hsub m (List.mem_cons_of_mem _ hm))
      · have hperm1 : (allBidders (addBid bids₀ t o) ++ rest).Perm
            ((o :: allBidders bids₀) ++ rest) :=
          (allBidders_addBid_perm bids₀ t o).append_right rest
        apply hperm1.symm.nodup
        rw [List.cons_append]
        exact List.nodup_cons.mpr ⟨honotin, hnd1⟩
      · exact bidKeys_addBid_nodup bids₀ t o hkeys
      · exact addBid_groups
          (fun k m => m ∈ s.ownerIds ∧ (s.owners m).intention = Intention.Buy k)
          bids₀ t o hgroups ⟨hsub o (List.mem_cons_self _ _), hint⟩

theorem collectBids_spec (s : ModelState) (hnd : s.ownerIds.Nodup) :
    (∀ p ∈ collectBids s, p.2 ≠ [] ∧ ∀ m ∈ p.2,
      m ∈ s.ownerIds ∧ (s.owners m).intention = Intention.Buy p.1) ∧
    (bidKeys (collectBids s)).Nodup ∧
    (allBidders (collectBids s)).Nodup := by
  have := bids_fold_spec s s.ownerIds [] (fun m hm => hm)
    (by simpa [allBidders] using hnd) (by simp [bidKeys]) (by simp)
  exact this

/-! ## Market clearing, interleaved -/

theorem movedState_label_value (s : ModelState) (w hid x : ℕ) :
    ((movedState s w hid).houses x).energy_label = (s.houses x).energy_label ∧
    ((movedState s w hid).houses x).market_value = (s.houses x).market_value := by
  simp only [movedState, Function.update_apply]
  split_ifs <;> simp_all

theorem movedState_intention (s : ModelState) (w hid o : ℕ) :
    ((movedState s w hid).owners o).intention = (s.owners o).intention := by
  simp only [movedState, Function.update_apply]
  split_ifs with h <;> simp [h]

theorem clearAll_spec (gs : List (ℕ × List ℕ)) (t : ModelState)
    (hInv : Inv t)
    (hkeys : (gs.map Prod.fst).Nodup)
    (hgs : ∀ p ∈ gs, p.1 ∈ t.vacancy_pool ∧ p.2 ≠ [] ∧
      ∀ m ∈ p.2, m ∈ t.ownerIds ∧ (t.owners m).intention = Intention.Buy p.1) :
    ∃ t', gs.foldlM clearOne t = some t' ∧ Inv t' ∧
      t'.ownerIds = t.ownerIds ∧ t'.houseIds = t.houseIds ∧
      (∀ x, (t'.houses x).energy_label = (t.houses x).energy_label ∧
            (t'.houses x).market_value = (t.houses x).market_value) ∧
      (∀ o, (t'.owners o).intention = (t.owners o).intention) ∧
      (∀ o, (t.owners o).intention = Intention.Upgrade → t'.owners o = t.owners o) := by
  induction gs generalizing t with
  | nil =>
    exact ⟨t, rfl, hInv, rfl, rfl, fun x => ⟨rfl, rfl⟩, fun o => rfl, fun o _ => rfl⟩
  | cons p rest ih =>
    obtain ⟨k, g⟩ := p
    obtain ⟨hk, hgne, hmem⟩ := hgs (k, g) (List.mem_cons_self _ _)
    obtain ⟨b, g', rfl⟩ : ∃ b g', g = b :: g' := by
      cases g with
      | nil => exact absurd rfl hgne
      | cons b g' => exact ⟨b, g', rfl⟩
    obtain ⟨w, hw⟩ : ∃ w, selectWinner t.owners (b :: g') = some w := ⟨_, rfl⟩
    have hwmem : w ∈ b :: g' := selectWinner_mem _ _ _ hw
    obtain ⟨hwown, hwint⟩ := hmem w hwmem
    have hkdom : k ∈ t.houseIds := by
      obtain ⟨_, _, _, hPoolSub, _⟩ := hInv
      exact hPoolSub k hk
    have hexec : execute_move t w k = some (movedState t w k) :=
      execute_move_isSome t w k hkdom
    have hclear : clearOne t (k, b :: g') = some (movedState t w k) := by
      unfold clearOne
      simp only
      rw [hw]
      exact hexec
    have hInv₁ := movedState_Inv t w k hInv hwown hk
    have hkeys' : (rest.map Prod.fst).Nodup := (List.nodup_cons.mp hkeys).2
    have hknotin : k ∉ rest.map Prod.fst := (List.nodup_cons.mp hkeys).1
    have hgs' : ∀ p ∈ rest, p.1 ∈ (movedState t w k).vacancy_pool ∧ p.2 ≠ [] ∧
        ∀ m ∈ p.2, m ∈ (movedState t w k).ownerIds ∧
          ((movedState t w k).owners m).intention = Intention.Buy p.1 := by
      intro p hp
      obtain ⟨hp1, hp2, hp3⟩ := hgs p (List.mem_cons_of_mem _ hp)
      have hpk : p.1 ≠ k := by
        intro he
        exact hknotin (he ▸ List.mem_map_of_mem Prod.fst hp)
      refine ⟨?_, hp2, ?_⟩
      · rw [movedState_pool t w k hk, (List.mem_erase_of_ne hpk)]
        exact List.mem_append_left _ hp1
      · intro m hm
        obtain ⟨hm1, hm2⟩ := hp3 m hm
        exact ⟨hm1, by rw [movedState_intention]; exact hm2⟩
    obtain ⟨t', ht1, ht2, ht3, ht4, ht5, ht6, ht7⟩ :=
      ih (movedState t w k) hInv₁ hkeys' hgs'
    refine ⟨t', ?_, ht2, ht3, ht4, ?_, ?_, ?_⟩
    · show (clearOne t (k, b :: g')) >>= (rest.foldlM clearOne ·) = some t'
      rw [hclear]
      exact ht1
    · intro x
      obtain ⟨hl, hv⟩ := ht5 x
      obtain ⟨hl2, hv2⟩ := movedState_label_value t w k x
      exact ⟨hl.trans hl2, hv.trans hv2⟩
    · intro o
      exact (ht6 o).trans (movedState_intention t w k o)
    · intro o ho
      have how : o ≠ w := by
        intro he
        rw [he, hwint] at ho
        exact Intention.noConfusion ho
      have h1 : (movedState t w k).owners o = t.owners o :=
        movedState_owners_other t w k o how
      have h2 : ((movedState t w k).owners o).intention = Intention.Upgrade := by
        rw [movedState_intention]; exact ho
      exact (ht7 o h2).trans h1

/-! ## The upgrade loop -/

theorem Inv_congr (t u : ModelState)
    (h1 : u.ownerIds = t.ownerIds) (h2 : u.houseIds = t.houseIds)
    (h3 : u.vacancy_pool = t.vacancy_pool)
    (h4 : ∀ x, (u.houses x).owner = (t.houses x).owner ∧
               (u.houses x).is_vacant = (t.houses x).is_vacant)
    (h5 : ∀ o, (u.owners o).house = (t.owners o).house)
    (hInv : Inv t) : Inv u := by
  obtain ⟨hNodupO, hNodupH, hNodupP, hPoolSub, hPoolIff, hXor, hDom, hBack, hRef⟩ := hInv
  rw [Inv, h1, h2, h3]
  refine ⟨hNodupO, hNodupH, hNodupP, hPoolSub, ?_, ?_, ?_, ?_, ?_⟩
  · intro x hx
    rw [(h4 x).2]
    exact hPoolIff x hx
  · intro x hx
    rw [(h4 x).2, (h4 x).1]
    exact hXor x hx
  · intro o ho
    rw [h5 o]
    exact hDom o ho
  · intro o ho
    rw [h5 o, (h4 (t.owners o).house).1]
    exact hBack o ho
  · intro x hx o ho
    rw [(h4 x).1] at ho
    obtain ⟨ho1, ho2⟩ := hRef x hx o ho
    exact ⟨ho1, by rw [h5 o]; exact ho2⟩

theorem upgradeStep_eq_of_not (t : ModelState) (oid : ℕ)
    (h : (t.owners oid).intention ≠ Intention.Upgrade) : upgradeStep t oid = t := by
  unfold upgradeStep
  cases hi : (t.owners oid).intention with
  | Stay => rfl
  | Upgrade => exact absurd hi h
  | Buy n => rfl

theorem upgradeStep_eq_of_upgrade (t : ModelState) (oid : ℕ)
    (h : (t.owners oid).intention = Intention.Upgrade) :
    upgradeStep t oid =
      { t with
        houses := Function.update t.houses (t.owners oid).house
          (update_energy_label (t.houses (t.owners oid).house) 1)
        owners := Function.update t.owners oid
          { t.owners oid with
            savings := (t.owners oid).savings - COST_PER_LABEL_UPGRADE
            intention := Intention.Stay } } := by
  unfold upgradeStep
  rw [h]

/-- The upgrade loop, analysed: identifiers and the pool are untouched; every
non-upgrading owner keeps their record; every upgrading owner pays exactly the
upgrade cost and reverts to `Stay`; every house keeps its owner and vacancy
flag, its rating and value never decrease, and its rating either stays or
increases by exactly one step bought by its upgrading occupant. -/
theorem upgrade_fold_spec (l : List ℕ) (t : ModelState)
    (hnd : l.Nodup) (hsub : ∀ o ∈ l, o ∈ t.ownerIds) (hInv : Inv t) :
    (l.foldl upgradeStep t).ownerIds = t.ownerIds ∧
    (l.foldl upgradeStep t).houseIds = t.houseIds ∧
    (l.foldl upgradeStep t).vacancy_pool = t.vacancy_pool ∧
    (∀ o, o ∉ l → (l.foldl upgradeStep t).owners o = t.owners o) ∧
    (∀ o ∈ l, (t.owners o).intention = Intention.Upgrade →
      (l.foldl upgradeStep t).owners o
        = { t.owners o with
            savings := (t.owners o).savings - COST_PER_LABEL_UPGRADE
            intention := Intention.Stay }) ∧
    (∀ o ∈ l, (t.owners o).intention ≠ Intention.Upgrade →
      (l.foldl upgradeStep t).owners o = t.owners o) ∧
    (∀ x, ((l.foldl upgradeStep t).houses x).owner = (t.houses x).owner ∧
          ((l.foldl upgradeStep t).houses x).is_vacant = (t.houses x).is_vacant) ∧
    (∀ x, (t.houses x).energy_label ≤ ((l.foldl upgradeStep t).houses x).energy_label ∧
          (t.houses x).market_value ≤ ((l.foldl upgradeStep t).houses x).market_value) ∧
    (∀ x, ((l.foldl upgradeStep t).houses x).energy_label = (t.houses x).energy_label ∨
      (((l.foldl upgradeStep t).houses x).energy_label = (t.houses x).energy_label + 1 ∧
        ∃ o ∈ l, (t.owners o).intention = Intention.Upgrade ∧ (t.owners o).house = x)) := by
  induction l generalizing t with
  | nil =>
    exact ⟨rfl, rfl, rfl, fun o _ => rfl, by simp, by simp, fun x => ⟨rfl, rfl⟩,
      fun x => ⟨le_refl _, le_refl _⟩, fun x => Or.inl rfl⟩
  | cons o rest ih =>
    have hfold : (o :: rest).foldl upgradeStep t
        = rest.foldl upgradeStep (upgradeStep t o) := rfl
    have honotin : o ∉ rest := (List.nodup_cons.mp hnd).1
    have hrestnd : rest.Nodup := (List.nodup_cons.mp hnd).2
    have ho : o ∈ t.ownerIds := hsub o (List.mem_cons_self _ _)
    -- pointwise facts about the single step
    have hstep1 : (upgradeStep t o).ownerIds = t.ownerIds := by
      by_cases hu : (t.owners o).intention = Intention.Upgrade
      · rw [upgradeStep_eq_of_upgrade t o hu]
      · rw [upgradeStep_eq_of_not t o hu]
    have hstep2 : (upgradeStep t o).houseIds = t.houseIds := by
      by_cases hu : (t.owners o).intention = Intention.Upgrade
      · rw [upgradeStep_eq_of_upgrade t o hu]
      · rw [upgradeStep_eq_of_not t o hu]
    have hstep3 : (upgradeStep t o).vacancy_pool = t.vacancy_pool := by
      by_cases hu : (t.owners o).intention = Intention.Upgrade
      · rw [upgradeStep_eq_of_upgrade t o hu]
      · rw [upgradeStep_eq_of_not t o hu]
    have hstepOwnOther : ∀ o', o' ≠ o → (upgradeStep t o).owners o' = t.owners o' := by
      intro o' ho'
      by_cases hu : (t.owners o).intention = Intention.Upgrade
      · rw [upgradeStep_eq_of_upgrade t o hu]
        simp only
        rw [Function.update_noteq ho']
      · rw [upgradeStep_eq_of_not t o hu]
    have hstepHouse : ∀ x,
        ((upgradeStep t o).houses x).owner = (t.houses x).owner ∧
        ((upgradeStep t o).houses x).is_vacant = (t.houses x).is_vacant := by
      intro x
      by_cases hu : (t.owners o).intention = Intention.Upgrade
      · rw [upgradeStep_eq_of_upgrade t o hu]
        simp only
        by_cases hx : x = (t.owners o).house
        · rw [hx, Function.update_same]
          exact ⟨rfl, rfl⟩
        · rw [Function.update_noteq hx]
          exact ⟨rfl, rfl⟩
      · rw [upgradeStep_eq_of_not t o hu]
        exact ⟨rfl, rfl⟩
    have hstepOwnHouse : ∀ o', ((upgradeStep t o).owners o').house = (t.owners o').house := by
      intro o'
      by_cases ho' : o' = o
      · subst ho'
        by_cases hu : (t.owners o').intention = Intention.Upgrade
        · rw [upgradeStep_eq_of_upgrade t o' hu]
          simp only
          rw [Function.update_same]
        · rw [upgradeStep_eq_of_not t o' hu]
      · rw [hstepOwnOther o' ho']
    have hstepIntention : ∀ o', o' ≠ o →
        ((upgradeStep t o).owners o').intention = (t.owners o').intention := by
      intro o' ho'
      rw [hstepOwnOther o' ho']
    have hInv1 : Inv (upgradeStep t o) :=
      Inv_congr t (upgradeStep t o) hstep1 hstep2 hstep3 hstepHouse hstepOwnHouse hInv
    have hsub1 : ∀ o' ∈ rest, o' ∈ (upgradeStep t o).ownerIds := by
      intro o' ho'
      rw [hstep1]
      exact hsub o' (List.mem_cons_of_mem _ ho')
    obtain ⟨ih1, ih2, ih3, ih4, ih5, ih6, ih7, ih8, ih9⟩ :=
      ih (upgradeStep t o) hrestnd hsub1 hInv1
    rw [hfold]
    refine ⟨ih1.trans hstep1, ih2.trans hstep2, ih3.trans hstep3, ?_, ?_, ?_, ?_, ?_, ?_⟩
    · intro o' ho'
      have h1 : o' ∉ rest := fun hr => ho' (List.mem_cons_of_mem _ hr)
      have h2 : o' ≠ o := fun he => ho' (he ▸ List.mem_cons_self o rest)
      rw [ih4 o' h1, hstepOwnOther o' h2]
    · intro o' ho' hu
      rcases List.mem_cons.mp ho' with he | hr
      · subst he
        rw [ih4 o' honotin, upgradeStep_eq_of_upgrade t o' hu]
        simp only
        rw [Function.update_same]
      · have h2 : o' ≠ o := fun he => honotin (he ▸ hr)
        have := ih5 o' hr (by rw [hstepIntention o' h2]; exact hu)
        rw [this, hstepOwnOther o' h2]
    · intro o' ho' hu
      rcases List.mem_cons.mp ho' with he | hr
      · subst he
        rw [ih4 o' honotin, upgradeStep_eq_of_not t o' hu]
      · have h2 : o' ≠ o := fun he => honotin (he ▸ hr)
        have := ih6 o' hr (by rw [hstepIntention o' h2]; exact hu)
        rw [this, hstepOwnOther o' h2]
    · intro x
      obtain ⟨ha, hb⟩ := ih7 x
      obtain ⟨hc, hd⟩ := hstepHouse x
      exact ⟨ha.trans hc, hb.trans hd⟩
    · intro x
      obtain ⟨ha, hb⟩ := ih8 x
      have hstepmono : (t.houses x).energy_label ≤ ((upgradeStep t o).houses x).energy_label ∧
          (t.houses x).market_value ≤ ((upgradeStep t o).houses x).market_value := by
        by_cases hu : (t.owners o).intention = Intention.Upgrade
        · rw [upgradeStep_eq_of_upgrade t o hu]
          simp only
          by_cases hx : x = (t.owners o).house
          · rw [hx, Function.update_same]
            unfold update_energy_label
            constructor
            · simp only
              linarith
            · simp only
              norm_num
          · rw [Function.update_noteq hx]
            exact ⟨le_refl _, le_refl _⟩
        · rw [upgradeStep_eq_of_not t o hu]
          exact ⟨le_refl _, le_refl _⟩
      exact ⟨hstepmono.1.trans ha, hstepmono.2.trans hb⟩
    · intro x
      have hstepx : ((upgradeStep t o).houses x).energy_label = (t.houses x).energy_label ∨
          (((upgradeStep t o).houses x).energy_label = (t.houses x).energy_label + 1 ∧
            (t.owners o).intention = Intention.Upgrade ∧ (t.owners o).house = x) := by
        by_cases hu : (t.owners o).intention = Intention.Upgrade
        · by_cases hx : x = (t.owners o).house
          · refine Or.inr ⟨?_, hu, hx.symm⟩
            rw [upgradeStep_eq_of_upgrade t o hu]
            simp only
            rw [hx, Function.update_same]
            rfl
          · refine Or.inl ?_
            rw [upgradeStep_eq_of_upgrade t o hu]
            simp only
            rw [Function.update_noteq hx]
        · refine Or.inl ?_
          rw [upgradeStep_eq_of_not t o hu]
      rcases ih9 x with h9 | ⟨h9, o', ho', hu', hh'⟩
      · rcases hstepx with hsx | ⟨hsx, hu, hh⟩
        · exact Or.inl (h9.trans hsx)
        · exact Or.inr ⟨h9.trans hsx, o, List.mem_cons_self _ _, hu, hh⟩
      · have ho'o : o' ≠ o := fun he => honotin (he ▸ ho')
        have hu'' : (t.owners o').intention = Intention.Upgrade := by
          rw [← hstepIntention o' ho'o]; exact hu'
        have hh'' : (t.owners o').house = x := by
          rw [← hstepOwnHouse o']; exact hh'
        rcases hstepx with hsx | ⟨hsx, hu, hh⟩
        · exact Or.inr ⟨by rw [h9, hsx], o', List.mem_cons_of_mem _ ho', hu'', hh''⟩
        · exfalso
          -- two distinct owners would own the same house x
          obtain ⟨hNodupO, hNodupH, hNodupP, hPoolSub, hPoolIff, hXor, hDom, hBack, hRef⟩ := hInv
          have hb1 := hBack o ho
          have hb2 := hBack o' (hsub o' (List.mem_cons_of_mem _ ho'))
          rw [hh] at hb1
          rw [hh''] at hb2
          rw [hb1] at hb2
          injection hb2 with hb2
          exact ho'o hb2.symm

/-! ## One full tick -/

/-- The decision phase from an invariant state: it always succeeds, preserves
the invariant and all shared state, and produces a bid dictionary whose keys
are vacant houses and whose bidders are owners with the matching intention. -/
theorem runDecisions_full (s : ModelState) (hInv : Inv s) :
    ∃ s1, runDecisions s = some s1 ∧ Inv s1 ∧
      s1.ownerIds = s.ownerIds ∧ s1.houseIds = s.houseIds ∧
      s1.houses = s.houses ∧ s1.vacancy_pool = s.vacancy_pool ∧
      (∀ o ∈ s.ownerIds, decideOwner s (s.owners o) = some (s1.owners o)) ∧
      (∀ p ∈ collectBids s1, p.1 ∈ s1.vacancy_pool ∧ p.2 ≠ [] ∧
        ∀ m ∈ p.2, m ∈ s1.ownerIds ∧ (s1.owners m).intention = Intention.Buy p.1) ∧
      ((collectBids s1).map Prod.fst).Nodup ∧
      (allBidders (collectBids s1)).Nodup := by
  have hndO : s.ownerIds.Nodup := hInv.1
  obtain ⟨s1, hs1, e1, e2, e3, e4, hkeep, hdec⟩ := runDecisions_spec s hndO
  have hInv1 : Inv s1 := by
    refine Inv_congr s s1 e1 e2 e4 (fun x => by rw [e3]; exact ⟨rfl, rfl⟩) ?_ hInv
    intro o
    by_cases ho : o ∈ s.ownerIds
    · exact (decideOwner_fields s (s.owners o) (s1.owners o) (hdec o ho)).2.2
    · rw [hkeep o ho]
  have hndO1 : s1.ownerIds.Nodup := by rw [e1]; exact hndO
  obtain ⟨hgroups, hkeysnd, hbidnd⟩ := collectBids_spec s1 hndO1
  refine ⟨s1, hs1, hInv1, e1, e2, e3, e4, hdec, ?_, hkeysnd, hbidnd⟩
  intro p hp
  obtain ⟨hne, hmem⟩ := hgroups p hp
  refine ⟨?_, hne, hmem⟩
  obtain ⟨b, g', he⟩ : ∃ b g', p.2 = b :: g' := by
    cases hq : p.2 with
    | nil => exact absurd hq hne
    | cons b g' => exact ⟨b, g', rfl⟩
  obtain ⟨hb1, hb2⟩ := hmem b (by rw [he]; exact List.mem_cons_self _ _)
  have hbs : b ∈ s.ownerIds := by rw [← e1]; exact hb1
  have htgt := decideOwner_buy_target s (s.owners b) (s1.owners b) p.1 (hdec b hbs) hb2
  rw [e4]
  exact htgt

/-- One tick from an invariant state: it succeeds, preserves the invariant and
both identifier lists, never decreases any energy label or market value, and
never pushes a label that was at most 7 above 7. -/
theorem modelStep_full (s : ModelState) (hInv : Inv s) :
    ∃ s1 s2, runDecisions s = some s1 ∧ resolve_market_conflicts s1 = some s2 ∧
      modelStep s = some (applyUpgrades s2) ∧ Inv (applyUpgrades s2) ∧
      (applyUpgrades s2).ownerIds = s.ownerIds ∧
      (applyUpgrades s2).houseIds = s.houseIds ∧
      (∀ x, (s.houses x).energy_label ≤ ((applyUpgrades s2).houses x).energy_label ∧
            (s.houses x).market_value ≤ ((applyUpgrades s2).houses x).market_value) ∧
      (∀ x, (s.houses x).energy_label ≤ 7 →
        ((applyUpgrades s2).houses x).energy_label ≤ 7) := by
  obtain ⟨s1, hs1, hInv1, e1, e2, e3, e4, hdec, hgs, hkeysnd, hbidnd⟩ :=
    runDecisions_full s hInv
  obtain ⟨s2, hs2, hInv2, f1, f2, f5, f6, f7⟩ :=
    clearAll_spec (collectBids s1) s1 hInv1 hkeysnd hgs
  have hres : resolve_market_conflicts s1 = some s2 := hs2
  have hndO2 : s2.ownerIds.Nodup := by rw [f1, e1]; exact hInv.1
  obtain ⟨g1, g2, g3, g4, g5, g6, g7, g8, g9⟩ :=
    upgrade_fold_spec s2.ownerIds s2 hndO2 (fun o ho => ho) hInv2
  have hOwnHouse : ∀ o, ((applyUpgrades s2).owners o).house = (s2.owners o).house := by
    intro o
    by_cases ho : o ∈ s2.ownerIds
    · by_cases hu : (s2.owners o).intention = Intention.Upgrade
      · show ((s2.ownerIds.foldl upgradeStep s2).owners o).house = _
        rw [g5 o ho hu]
      · show ((s2.ownerIds.foldl upgradeStep s2).owners o).house = _
        rw [g6 o ho hu]
    · show ((s2.ownerIds.foldl upgradeStep s2).owners o).house = _
      rw [g4 o ho]
  have hInv3 : Inv (applyUpgrades s2) := Inv_congr s2 (applyUpgrades s2) g1 g2 g3 g7
    hOwnHouse hInv2
  have hstep : modelStep s = some (applyUpgrades s2) := by
    unfold modelStep
    rw [hs1]
    show resolve_market_conflicts s1 >>= (fun u => pure (applyUpgrades u)) = _
    rw [hres]
    rfl
  have hau : applyUpgrades s2 = s2.ownerIds.foldl upgradeStep s2 := rfl
  refine ⟨s1, s2, hs1, hres, hstep, hInv3, by rw [hau, g1, f1, e1],
    by rw [hau, g2, f2, e2], ?_, ?_⟩
  · intro x
    have hx1 : (s.houses x).energy_label = (s2.houses x).energy_label := by
      rw [(f5 x).1, e3]
    have hx2 : (s.houses x).market_value = (s2.houses x).market_value := by
      rw [(f5 x).2, e3]
    rw [hau, hx1, hx2]
    exact g8 x
  · intro x hx7
    rcases g9 x with h | ⟨hlab, o, ho, hu, hh⟩
    · show ((s2.ownerIds.foldl upgradeStep s2).houses x).energy_label ≤ 7
      rw [h, (f5 x).1, e3]
      exact hx7
    · have ho1 : o ∈ s1.ownerIds := by rw [← f1]; exact ho
      have hos : o ∈ s.ownerIds := by rw [← e1]; exact ho1
      have hint1 : (s1.owners o).intention = Intention.Upgrade := by
        rw [← f6 o]; exact hu
      have hrec : s2.owners o = s1.owners o := f7 o hint1
      obtain ⟨_, _, hhouse⟩ :=
        decideOwner_fields s (s.owners o) (s1.owners o) (hdec o hos)
      have hgate := decideOwner_upgrade_gate s (s.owners o) (s1.owners o)
        (hdec o hos) hint1
      have hhx : (s.owners o).house = x := by
        rw [← hhouse, ← hrec]
        exact hh
      have hlt : (s.houses x).energy_label < 7 := by
        rw [← hhx]
        exact hgate.2
      show ((s2.ownerIds.foldl upgradeStep s2).houses x).energy_label ≤ 7
      rw [hlab, (f5 x).1, e3]
      omega

/-! ## Initialization and reachability -/

theorem initState_label (n m : ℕ) (label : ℕ → ℤ) (size quality price : ℕ → ℚ)
    (income savings : ℕ → ℚ) (x : ℕ) :
    ((initState n m label size quality price income savings).houses x).energy_label
      = label x := by
  simp only [initState]
  split <;> rfl

theorem initState_Inv (n m : ℕ) (label : ℕ → ℤ) (size quality price : ℕ → ℚ)
    (income savings : ℕ → ℚ) (hn : n ≤ m) :
    Inv (initState n m label size quality price income savings) := by
  have hpool : ∀ x, x ∈ List.range' n (m - n) ↔ n ≤ x ∧ x < m := by
    intro x
    rw [List.mem_range'_1]
    omega
  refine ⟨List.nodup_range n, List.nodup_range m, List.nodup_range' _ _,
    ?_, ?_, ?_, ?_, ?_, ?_⟩
  · intro x hx
    simp only [initState] at hx ⊢
    rw [List.mem_range]
    exact ((hpool x).mp hx).2
  · intro x hx
    simp only [initState] at hx ⊢
    rw [List.mem_range] at hx
    rw [hpool x]
    by_cases hlt : x < n
    · simp only [if_pos hlt, initHouse]
      constructor
      · intro hc; omega
      · intro hc; exact absurd hc (by simp)
    · simp only [if_neg hlt, initHouse]
      constructor
      · intro _; trivial
      · intro _; omega
  · intro x hx
    simp only [initState] at hx ⊢
    by_cases hlt : x < n
    · simp [if_pos hlt, initHouse]
    · simp [if_neg hlt, initHouse]
  · intro o ho
    simp only [initState] at ho ⊢
    rw [List.mem_range] at ho
    rw [List.mem_range]
    omega
  · intro o ho
    simp only [initState] at ho ⊢
    rw [List.mem_range] at ho
    simp [if_pos ho]
  · intro x hx o ho
    simp only [initState] at hx ho ⊢
    rw [List.mem_range] at hx
    by_cases hlt : x < n
    · simp only [if_pos hlt, initHouse] at ho
      simp only [Option.toList_some, List.mem_singleton] at ho
      subst ho
      rw [List.mem_range]
      exact ⟨hlt, rfl⟩
    · simp only [if_neg hlt, initHouse] at ho
      simp at ho

theorem Reachable_spec (s : ModelState) (h : Reachable s) :
    Inv s ∧ ∀ x ∈ s.houseIds,
      0 ≤ (s.houses x).energy_label ∧ (s.houses x).energy_label ≤ 7 := by
  induction h with
  | init n m label size quality price income savings hn hlabel =>
    refine ⟨initState_Inv n m label size quality price income savings hn, ?_⟩
    intro x hx
    rw [initState_label]
    exact ⟨(hlabel x).1, le_trans (hlabel x).2 (by norm_num)⟩
  | step s s' hreach hstep ih =>
    obtain ⟨hInv, hbound⟩ := ih
    obtain ⟨s1, s2, hs1, hres, hstep', hInv', hids, hhids, hmono, h7⟩ :=
      modelStep_full s hInv
    rw [hstep] at hstep'
    injection hstep' with he
    rw [he]
    refine ⟨hInv', ?_⟩
    intro x hx
    have hxs : x ∈ s.houseIds := by
      rw [← hhids]
      exact hx
    obtain ⟨h0, h7'⟩ := hbound x hxs
    exact ⟨le_trans h0 (hmono x).1, h7 x h7'⟩

theorem exInit_reachable : Reachable exInit := by
  have h := Reachable.init 2 3 (fun i => if i = 0 then 0 else 5) (fun _ => 100)
    (fun i => if i = 0 then 0 else if i = 1 then 9/10 else 99/100)
    (fun i => if i = 2 then 160000 else 100000)
    (fun i => if i = 0 then 30000 else 40000)
    (fun i => if i = 0 then 5001 else 5000)
    (by norm_num)
    (fun i => by by_cases h : i = 0 <;> simp [h])
  exact h

/-! ## C1, C7, C10 -/

/-- C1: in every reachable state each known asset is vacant exactly when it
has no owner (never both, never neither) and the vacancy pool contains exactly
the assets whose vacancy flag is true; both facts are re-established after
every individual successful move executed from such a state. -/
theorem C1_vacancy_invariant (s : ModelState) (hs : Reachable s) :
    (∀ h ∈ s.houseIds, ((s.houses h).is_vacant = true ↔ (s.houses h).owner = none)) ∧
    (∀ h ∈ s.houseIds, (h ∈ s.vacancy_pool ↔ (s.houses h).is_vacant = true)) ∧
    (∀ w hid s', w ∈ s.ownerIds → hid ∈ s.vacancy_pool →
      execute_move s w hid = some s' →
      (∀ h ∈ s'.houseIds,
        ((s'.houses h).is_vacant = true ↔ (s'.houses h).owner = none)) ∧
      (∀ h ∈ s'.houseIds, (h ∈ s'.vacancy_pool ↔ (s'.houses h).is_vacant = true))) := by
  obtain ⟨hInv, _⟩ := Reachable_spec s hs
  refine ⟨fun h hh => hInv.2.2.2.2.2.1 h hh, fun h hh => hInv.2.2.2.2.1 h hh, ?_⟩
  intro w hid s' hw hpool hexec
  have hdom : hid ∈ s.houseIds := hInv.2.2.2.1 hid hpool
  rw [execute_move_isSome s w hid hdom] at hexec
  injection hexec with he
  rw [← he]
  have hInv' := movedState_Inv s w hid hInv hw hpool
  exact ⟨fun h hh => hInv'.2.2.2.2.2.1 h hh, fun h hh => hInv'.2.2.2.2.1 h hh⟩

/-- C1 witness: the invariant holds in the concrete reachable state `exInit`,
also after the move of owner 0 into the vacant house 2. -/
theorem C1_witness :
    (2 ∈ exInit.vacancy_pool ↔ (exInit.houses 2).is_vacant = true) ∧
    ((exInit.houses 0).is_vacant = true ↔ (exInit.houses 0).owner = none) ∧
    (((movedState exInit 0 2).houses 0).is_vacant = true
      ↔ ((movedState exInit 0 2).houses 0).owner = none) := by
  refine ⟨(C1_vacancy_invariant exInit exInit_reachable).2.1 2
      (by with_unfolding_all decide),
    (C1_vacancy_invariant exInit exInit_reachable).1 0
      (by with_unfolding_all decide),
    ((C1_vacancy_invariant exInit exInit_reachable).2.2 0 2 (movedState exInit 0 2)
      (by with_unfolding_all decide) (by with_unfolding_all decide)
      (execute_move_isSome exInit 0 2 (by with_unfolding_all decide))).1 0
      (by with_unfolding_all decide)⟩

/-- C7: in every reachable state every known asset's energy rating is an
integer in 0-7; one further tick never decreases any rating or market value;
and the raw upgrade mutation itself increments the rating with no clamp at
7. -/
theorem C7_rating_bounds_monotone (s : ModelState) (hs : Reachable s) :
    (∀ x ∈ s.houseIds,
      0 ≤ (s.houses x).energy_label ∧ (s.houses x).energy_label ≤ 7) ∧
    (∀ s', modelStep s = some s' → ∀ x,
      (s.houses x).energy_label ≤ (s'.houses x).energy_label ∧
      (s.houses x).market_value ≤ (s'.houses x).market_value) ∧
    (∀ h : House, (update_energy_label h 1).energy_label = h.energy_label + 1) := by
  obtain ⟨hInv, hbound⟩ := Reachable_spec s hs
  refine ⟨hbound, ?_, fun h => rfl⟩
  intro s' hstep x
  obtain ⟨s1, s2, hs1, hres, hstep', _, _, _, hmono, _⟩ := modelStep_full s hInv
  rw [hstep] at hstep'
  injection hstep' with he
  rw [he]
  exact hmono x

/-- C7 witness: the bounds and the no-clamp increment at the concrete
reachable state `exInit` and its house 0. -/
theorem C7_witness :
    0 ≤ (exInit.houses 0).energy_label ∧ (exInit.houses 0).energy_label ≤ 7 ∧
    (update_energy_label (exInit.houses 0) 1).energy_label
      = (exInit.houses 0).energy_label + 1 := by
  have h := C7_rating_bounds_monotone exInit exInit_reachable
  exact ⟨(h.1 0 (by with_unfolding_all decide)).1,
    (h.1 0 (by with_unfolding_all decide)).2, h.2.2 (exInit.houses 0)⟩

/-- C10: from every reachable state the full tick succeeds (in particular the
house-map lookup performed for every winner's target succeeds), and after the
decision phase every bid targets a house that was in the vacancy pool at
decision time, a house occupied by no participant — so a participant can
never lose a bid on their own home. -/
theorem C10_bid_targets_vacant (s : ModelState) (hs : Reachable s) :
    (∃ s', modelStep s = some s') ∧
    (∀ s1, runDecisions s = some s1 →
      ∀ p ∈ collectBids s1, p.1 ∈ s1.vacancy_pool ∧
        ∀ o ∈ s1.ownerIds, (s1.owners o).house ≠ p.1) := by
  obtain ⟨hInv, _⟩ := Reachable_spec s hs
  constructor
  · obtain ⟨s1, s2, hs1, hres, hstep', _⟩ := modelStep_full s hInv
    exact ⟨_, hstep'⟩
  · intro s1 hs1'
    obtain ⟨t1, ht1, hInvt, te1, te2, te3, te4, tdec, tgs, _, _⟩ :=
      runDecisions_full s hInv
    rw [ht1] at hs1'
    injection hs1' with he
    subst he
    intro p hp
    obtain ⟨hp1, hp2, hp3⟩ := tgs p hp
    refine ⟨hp1, ?_⟩
    intro o ho hoc
    have hback := hInvt.2.2.2.2.2.2.2.1 o ho
    have hdom : p.1 ∈ t1.houseIds := hInvt.2.2.2.1 p.1 hp1
    have hvac := (hInvt.2.2.2.2.1 p.1 hdom).mp hp1
    have hnone := (hInvt.2.2.2.2.2.1 p.1 hdom).mp hvac
    rw [hoc, hnone] at hback
    exact Option.noConfusion hback

/-- C10 witness: the tick from the concrete reachable state `exInit`
succeeds. -/
theorem C10_witness : (modelStep exInit).isSome = true := by
  obtain ⟨s', hs'⟩ := (C10_bid_targets_vacant exInit exInit_reachable).1
  rw [hs']
  rfl

/-! ## C5: interleaved clearing equals the two-phase reference resolver -/

theorem selectWinner_fold_congr (o1 o2 : ℕ → HomeOwner) (rest : List ℕ) (b : ℕ)
    (h : ∀ m ∈ b :: rest, o1 m = o2 m) :
    rest.foldl (fun best x =>
        if capacity (o1 best) < capacity (o1 x) then x else best) b
      = rest.foldl (fun best x =>
        if capacity (o2 best) < capacity (o2 x) then x else best) b := by
  induction rest generalizing b with
  | nil => rfl
  | cons x xs ih =>
    have hb := h b (List.mem_cons_self _ _)
    have hx := h x (List.mem_cons_of_mem _ (List.mem_cons_self _ _))
    have hpick : (if capacity (o1 b) < capacity (o1 x) then x else b)
        = (if capacity (o2 b) < capacity (o2 x) then x else b) := by
      rw [hb, hx]
    show xs.foldl _ (if capacity (o1 b) < capacity (o1 x) then x else b)
      = xs.foldl _ (if capacity (o2 b) < capacity (o2 x) then x else b)
    rw [← hpick]
    apply ih
    intro m hm
    rcases List.mem_cons.mp hm with he | hxs
    · subst he
      split
      · exact hx
      · exact hb
    · exact h m (List.mem_cons_of_mem _ (List.mem_cons_of_mem _ hxs))

theorem selectWinner_congr (o1 o2 : ℕ → HomeOwner) (l : List ℕ)
    (h : ∀ m ∈ l, o1 m = o2 m) : selectWinner o1 l = selectWinner o2 l := by
  cases l with
  | nil => rfl
  | cons b rest =>
    show some (rest.foldl (fun best x =>
        if capacity (o1 best) < capacity (o1 x) then x else best) b)
      = some (rest.foldl (fun best x =>
        if capacity (o2 best) < capacity (o2 x) then x else best) b)
    rw [selectWinner_fold_congr o1 o2 rest b h]

theorem resolve_fold_eq (s : ModelState) (gs : List (ℕ × List ℕ)) (t : ModelState)
    (hagree : ∀ m ∈ allBidders gs, t.owners m = s.owners m)
    (hnd : (allBidders gs).Nodup) :
    gs.foldlM clearOne t
      = (gs.map (fun p => (p.1, selectWinner s.owners p.2))).foldlM execWinner t := by
  induction gs generalizing t with
  | nil => rfl
  | cons p rest ih =>
    obtain ⟨k, g⟩ := p
    have hmembers : allBidders ((k, g) :: rest) = g ++ allBidders rest := rfl
    have hagreeg : ∀ m ∈ g, t.owners m = s.owners m := by
      intro m hm
      exact hagree m (by rw [hmembers]; exact List.mem_append_left _ hm)
    have hsel : selectWinner t.owners g = selectWinner s.owners g :=
      selectWinner_congr t.owners s.owners g hagreeg
    have hndg : (g ++ allBidders rest).Nodup := by rw [← hmembers]; exact hnd
    have hfold1 : ((k, g) :: rest).foldlM clearOne t
        = clearOne t (k, g) >>= (rest.foldlM clearOne ·) := rfl
    have hfold2 : (((k, g) :: rest).map
          (fun p => (p.1, selectWinner s.owners p.2))).foldlM execWinner t
        = execWinner t (k, selectWinner s.owners g) >>=
            ((rest.map (fun p => (p.1, selectWinner s.owners p.2))).foldlM execWinner ·) := rfl
    rw [hfold1, hfold2]
    cases hsw : selectWinner s.owners g with
    | none =>
      have hg : g = [] := by
        cases g with
        | nil => rfl
        | cons b g' =>
          have : selectWinner s.owners (b :: g') = some _ := rfl
          rw [hsw] at this
          exact Option.noConfusion this
      subst hg
      rfl
    | some w =>
      have hwg : w ∈ g := selectWinner_mem s.owners g w hsw
      have hone : clearOne t (k, g) = execute_move t w k := by
        unfold clearOne
        simp only
        rw [hsel, hsw]
      have htwo : execWinner t (k, some w) = execute_move t w k := rfl
      rw [hone, htwo]
      cases hev : execute_move t w k with
      | none => rfl
      | some t₁ =>
        show rest.foldlM clearOne t₁
          = (rest.map (fun p => (p.1, selectWinner s.owners p.2))).foldlM execWinner t₁
        have hdom : k ∈ t.houseIds := by
          by_cases hd : k ∈ t.houseIds
          · exact hd
          · rw [execute_move_none t w k hd] at hev
            exact Option.noConfusion hev
        have ht₁ : t₁ = movedState t w k := by
          rw [execute_move_isSome t w k hdom] at hev
          injection hev with hev
          exact hev.symm
        apply ih t₁
        · intro m hm
          have hmw : m ≠ w := by
            intro he
            have hdisj := (List.nodup_append.mp hndg).2.2
            exact hdisj (he ▸ hwg) hm
          rw [ht₁, movedState_owners_other t w k m hmw]
          exact hagree m (by rw [hmembers]; exact List.mem_append_right _ hm)
        · exact ((List.nodup_append.mp hndg).2.1)

/-- C5: the market-clearing phase as implemented (selecting the winner of each
contested asset with the current agent records and executing its move at once)
computes exactly the same result as the reference resolver that first selects
every contested asset's winner over the frozen pre-clearing state and only
then executes all moves. -/
theorem C5_two_phase_equal (s : ModelState) (hnd : s.ownerIds.Nodup) :
    resolve_market_conflicts s = resolveTwoPhase s := by
  obtain ⟨_, _, hbidnd⟩ := collectBids_spec s hnd
  exact resolve_fold_eq s (collectBids s) s (fun m _ => rfl) hbidnd

/-- C5 witness: the two resolvers agree on the contested concrete state
`exBidState`. -/
theorem C5_witness :
    resolve_market_conflicts exBidState = resolveTwoPhase exBidState :=
  C5_two_phase_equal exBidState (by with_unfolding_all decide)

/-! ## C9: no re-validation, negative savings reachable -/

theorem execute_move_savings (s : ModelState) (w hid : ℕ) (s' : ModelState)
    (h : execute_move s w hid = some s') :
    (s'.owners w).savings = (s.owners w).savings - MOVING_COST_FIXED := by
  rw [execute_move_eq] at h
  split at h
  · injection h with h
    rw [← h, movedState_owners_self]
  · exact Option.noConfusion h

theorem upgrade_fold_savings (l : List ℕ) (t : ModelState) (hnd : l.Nodup) :
    (∀ o, o ∉ l → (l.foldl upgradeStep t).owners o = t.owners o) ∧
    (∀ o ∈ l, (t.owners o).intention = Intention.Upgrade →
      ((l.foldl upgradeStep t).owners o).savings
        = (t.owners o).savings - COST_PER_LABEL_UPGRADE) := by
  induction l generalizing t with
  | nil => exact ⟨fun o _ => rfl, by simp⟩
  | cons o rest ih =>
    have honotin : o ∉ rest := (List.nodup_cons.mp hnd).1
    have hrestnd := (List.nodup_cons.mp hnd).2
    have hstepOwnOther : ∀ o', o' ≠ o → (upgradeStep t o).owners o' = t.owners o' := by
      intro o' ho'
      by_cases hu : (t.owners o).intention = Intention.Upgrade
      · rw [upgradeStep_eq_of_upgrade t o hu]
        simp only
        rw [Function.update_noteq ho']
      · rw [upgradeStep_eq_of_not t o hu]
    obtain ⟨ih1, ih2⟩ := ih (upgradeStep t o) hrestnd
    have hfold : (o :: rest).foldl upgradeStep t
        = rest.foldl upgradeStep (upgradeStep t o) := rfl
    refine ⟨?_, ?_⟩
    · intro o' ho'
      have h1 : o' ∉ rest := fun hr => ho' (List.mem_cons_of_mem _ hr)
      have h2 : o' ≠ o := fun he => ho' (he ▸ List.mem_cons_self o rest)
      rw [hfold, ih1 o' h1, hstepOwnOther o' h2]
    · intro o' ho' hu
      rcases List.mem_cons.mp ho' with he | hr
      · subst he
        rw [hfold, ih1 o' honotin, upgradeStep_eq_of_upgrade t o' hu]
        simp only
        rw [Function.update_same]
      · have h2 : o' ≠ o := fun he => honotin (he ▸ hr)
        have hint' : ((upgradeStep t o).owners o').intention = Intention.Upgrade := by
          rw [hstepOwnOther o' h2]
          exact hu
        rw [hfold, ih2 o' hr hint', hstepOwnOther o' h2]

/-- C9: `Move` unconditionally deducts exactly the fixed moving cost from the
buyer's savings (never the asset's price), `Upgrade` unconditionally deducts
exactly the fixed upgrade cost, neither re-validates affordability, and some
reachable state has a participant with strictly negative savings (reached by a
winning move from savings below the moving cost). -/
theorem C9_unvalidated_mutations :
    (∀ s w hid s', execute_move s w hid = some s' →
      (s'.owners w).savings = (s.owners w).savings - MOVING_COST_FIXED) ∧
    (∀ s : ModelState, s.ownerIds.Nodup → ∀ o ∈ s.ownerIds,
      (s.owners o).intention = Intention.Upgrade →
      ((applyUpgrades s).owners o).savings
        = (s.owners o).savings - COST_PER_LABEL_UPGRADE) ∧
    (∃ s, Reachable s ∧ ∃ o ∈ s.ownerIds, (s.owners o).savings < 0) := by
  refine ⟨execute_move_savings, ?_, ?_⟩
  · intro s hnd o ho hu
    exact (upgrade_fold_savings s.ownerIds s hnd).2 o ho hu
  · have h1 : (modelStep exInit).isSome = true := by with_unfolding_all rfl
    obtain ⟨s1, hs1⟩ := Option.isSome_iff_exists.mp h1
    have h2 : ((modelStep exInit).bind modelStep).isSome = true := by
      with_unfolding_all rfl
    rw [hs1] at h2
    have h2' : (modelStep s1).isSome = true := h2
    obtain ⟨s2, hs2⟩ := Option.isSome_iff_exists.mp h2'
    have hsav : ((modelStep exInit).bind modelStep).map
        (fun t => (t.owners 0).savings) = some (-1999) := by
      with_unfolding_all rfl
    rw [hs1] at hsav
    have hsav' : (modelStep s1).map (fun t => (t.owners 0).savings)
        = some (-1999) := hsav
    rw [hs2] at hsav'
    simp only [Option.map_some'] at hsav'
    injection hsav' with hsav''
    have hmem : ((modelStep exInit).bind modelStep).map
        (fun t => t.ownerIds) = some [0, 1] := by
      with_unfolding_all rfl
    rw [hs1] at hmem
    have hmem' : (modelStep s1).map (fun t => t.ownerIds) = some [0, 1] := hmem
    rw [hs2] at hmem'
    simp only [Option.map_some'] at hmem'
    injection hmem' with hmem''
    have hr1 : Reachable s1 := Reachable.step _ _ exInit_reachable hs1
    have hr2 : Reachable s2 := Reachable.step _ _ hr1 hs2
    refine ⟨s2, hr2, 0, ?_, ?_⟩
    · rw [hmem'']
      exact List.mem_cons_self _ _
    · rw [hsav'']
      norm_num

/-- C9 witness: resolving the contested concrete state deducts exactly the
moving cost from the winner (10000 → 8000), ignoring the asset's price. -/
theorem C9_witness : ((movedState exBidState 1 30).owners 1).savings = 8000 := by
  have h := C9_unvalidated_mutations.1 exBidState 1 30 (movedState exBidState 1 30)
    (execute_move_isSome exBidState 1 30 (by with_unfolding_all decide))
  rw [h]
  with_unfolding_all rfl

end HousingABM
